import Mathlib

/-!
Verification of dragon/vm/theano/compile/function.py.

The file shallowly embeds the compilation entry point `function` and its
helpers (`GraphDef_Grad`, `GraphDef_Phase`, `GraphDef_Update`,
`GraphDef_Opt`, `GraphDef_Device`) over an explicit workspace state.

Modelling choices, recorded once here:

* Python operator objects live on a heap (`WsState.heap : Nat → Option
  OperatorDef`); a Tensor expression record maps an expression key to a
  heap reference.  `copy.deepcopy` allocates fresh references; the givens
  rewrite mutates the heap in place at the copied references, exactly as
  the Python mutates the copied protobuf objects.
* Expression keys are natural numbers assigned in construction order.
  The Tensor class itself is not part of the sources under scrutiny;
  this part is modelled from the spec, which states that keys are
  assigned in original construction order and that sorting by key
  recovers per-operator-creation order.
* `GetTensorName` and `GetOperatorName` come from dragon.core.scope,
  also not among the sources; they are modelled from the spec as fresh
  unique name generators driven by workspace counters.
* The external differentiation builder `GraphGradientMaker.Make` is an
  opaque pure parameter `make`, per the spec contract
  build(operatorList, costNames) -> (forward, backward).
* Python dicts with string or integer keys are association lists with
  unique keys kept in insertion order; dict(a, **b) is `dictMerge a b`
  (entries of b overwrite entries of a).  Python set iteration order is
  unspecified; the two places a set is iterated (extra targets, gradient
  target pairs) are modelled with a deterministic first-occurrence
  order, and no claim depends on that order.
* Raw numpy arrays are modelled as `List Int`; feeding a value into the
  workspace records a (key, value) pair of Python objects, so that the
  argument order of FeedTensor calls is observable.
-/

set_option linter.unusedVariables false

/-- Typed argument values (MakeArgument payloads). -/
inductive ArgVal where
  | str : String → ArgVal
  | int : Int → ArgVal
  | ints : List Int → ArgVal
deriving DecidableEq, Repr

/-- An IR operator definition (protobuf OperatorDef). -/
structure OperatorDef where
  type : String
  input : List String
  output : List String
  arg : List (String × ArgVal)
deriving DecidableEq, Repr

/-- Default operator used to read a heap cell; well-formedness hypotheses
ensure it is never the value actually read. -/
def defaultOp : OperatorDef := { type := "", input := [], output := [], arg := [] }

/-- Keys of an association list modelling a Python dict. -/
def dictKeys {κ ν : Type} (d : List (κ × ν)) : List κ := d.map Prod.fst

/-- Python dict assignment d[k] = v: overwrite in place if the key is
present, append otherwise (insertion order preserved). -/
def dictSet {κ ν : Type} [DecidableEq κ] (d : List (κ × ν)) (k : κ) (v : ν) : List (κ × ν) :=
  if k ∈ dictKeys d then d.map (fun p => if p.1 = k then (k, v) else p) else d ++ [(k, v)]

/-- Python dict lookup. -/
def dictGet {κ ν : Type} [DecidableEq κ] (d : List (κ × ν)) (k : κ) : Option ν :=
  (d.find? (fun p => decide (p.1 = k))).map Prod.snd

/-- Python dict(a, **b): start from a, then assign every entry of b
(entries of b win on key collision). -/
def dictMerge {κ ν : Type} [DecidableEq κ] (a b : List (κ × ν)) : List (κ × ν) :=
  b.foldl (fun d p => dictSet d p.1 p.2) a

/-- Stable insertion into a key-sorted list of expression entries. -/
def insertByKey (x : Nat × Nat) : List (Nat × Nat) → List (Nat × Nat)
  | [] => [x]
  | y :: ys => if y.1 < x.1 then y :: insertByKey x ys else x :: y :: ys

/-- Stable sort by key, modelling sorted(all_exprs.items(), key fst). -/
def sortByKey : List (Nat × Nat) → List (Nat × Nat)
  | [] => []
  | x :: xs => insertByKey x (sortByKey xs)

/-- A symbolic variable record (the part of dragon Tensor consumed here):
name, expression ledger (expression key to heap reference), extra target
names, pending grad-wrt requests. -/
structure TensorRec where
  name : String
  expressions : List (Nat × Nat)
  extra_targets : List String
  grad_wrts : List String
deriving DecidableEq, Repr

/-- A givens replacement: either a symbolic variable or a raw array. -/
inductive GivenVal where
  | tensor : TensorRec → GivenVal
  | array : List Int → GivenVal
deriving DecidableEq, Repr

/-- A (cost, wrt) gradient target pair. -/
structure GradientTarget where
  cost : String
  wrt : String
deriving DecidableEq, Repr

/-- A synthesized update target (protobuf UpdateTarget). -/
structure UpdateTarget where
  type : String
  name : String
  tensor : List String
  arg : List (String × ArgVal)
deriving DecidableEq, Repr

/-- Device option block (protobuf DeviceOption). -/
structure DeviceOption where
  device_type : Nat
  gpu_id : Nat
  random_seed : Nat
  engine : String
deriving DecidableEq, Repr

/-- The IR graph definition (protobuf GraphDef); proto3 defaults are the
empty lists, false flags and no device option. -/
structure GraphDef where
  name : String
  op : List OperatorDef
  target : List String
  g_target : List GradientTarget
  u_target : List UpdateTarget
  arg : List (String × ArgVal)
  debug_mode : Bool
  share_grads : Bool
  device_option : Option DeviceOption
deriving DecidableEq, Repr

/-- Python objects observable at the FeedTensor boundary: a name string
or a raw array.  Keeping both sides of the call polymorphic makes an
argument-order mistake expressible. -/
inductive PyObj where
  | str : String → PyObj
  | arr : List Int → PyObj
deriving DecidableEq, Repr

/-- The updater collaborator as consumed by GraphDef_Update. -/
structure Updater where
  type : String
  extra_kwargs : List (String × ArgVal)
  hyper_params : List (String × Int)
  tuples : List (List String × List (String × ArgVal))
deriving DecidableEq, Repr

/-- Ambient configuration: dragon.config options, phase scope and the
MPI collaborator, all read-only during one compilation. -/
structure Config where
  device : String
  gpu_id : Nat
  random_seed : Nat
  use_cudnn : Bool
  debug_mode : Bool
  share_grads : Bool
  phase_scope : String
  mpi_init : Bool
  mpi_allow : Int × List Nat
  mpi_parallel_mode : String
  mpi_create : Nat → List Nat → Int × Int

/-- Mutable workspace state: the graph counter, registered graphs, the
fed-value store, the two fresh-name counters, and the operator heap. -/
structure WsState where
  current_graph_idx : Nat
  graphs : List GraphDef
  feeds : List (PyObj × PyObj)
  tensor_name_idx : Nat
  op_name_idx : Nat
  heap : Nat → Option OperatorDef
  nextRef : Nat

/-- Read an operator definition from the heap. -/
def readOp (heap : Nat → Option OperatorDef) (r : Nat) : OperatorDef :=
  (heap r).getD defaultOp

/-- Register an array in the workspace value store (ws.FeedTensor).  The
real store is keyed by a tensor name; both positions are kept as raw
Python objects so that the caller-side argument order is part of the
model. -/
def FeedTensor (s : WsState) (key val : PyObj) : WsState :=
  { s with feeds := s.feeds ++ [(key, val)] }

/-- Little-endian decimal digits of a natural number, driven by explicit
fuel so that the definition is structural and evaluates by reduction. -/
def decDigitsRevAux : Nat → Nat → List Nat
  | _, 0 => []
  | n, fuel + 1 => if n < 10 then [n] else (n % 10) :: decDigitsRevAux (n / 10) fuel

/-- Little-endian decimal digits of a natural number. -/
def decDigitsRev (n : Nat) : List Nat := decDigitsRevAux n (n + 1)

/-- Decimal string of a natural number, built from our own digit list so
that injectivity is provable. -/
def natStr (n : Nat) : String :=
  String.mk ((decDigitsRev n).reverse.map Nat.digitChar)

/-- Modelled from the spec: dragon.core.scope.GetTensorName (not among
the sources) returns a fresh unique tensor name from a counter. -/
def GetTensorName (s : WsState) : String × WsState :=
  ("Tensor_" ++ natStr s.tensor_name_idx, { s with tensor_name_idx := s.tensor_name_idx + 1 })

/-- Modelled from the spec: dragon.core.scope.GetOperatorName (not among
the sources) returns a fresh unique operator name from a counter. -/
def GetOperatorName (s : WsState) : String × WsState :=
  ("Op_" ++ natStr s.op_name_idx, { s with op_name_idx := s.op_name_idx + 1 })

/-- Uppercase a string character by character (str.upper). -/
def strUpper (s : String) : String := String.mk (s.data.map Char.toUpper)

/-- First-occurrence deduplication, modelling iteration over a Python
set of pairs (iteration order itself is unspecified in Python). -/
def dedupFirst {α : Type} [DecidableEq α] (l : List α) : List α :=
  l.foldl (fun acc a => if a ∈ acc then acc else acc ++ [a]) []

/-- The deduplicated (cost, wrt) pairs collected by GraphDef_Grad. -/
def gradPairsOf (targets : List TensorRec) : List GradientTarget :=
  dedupFirst (targets.flatMap (fun t => t.grad_wrts.map (fun w => GradientTarget.mk t.name w)))

/-- Source GraphDef_Grad: extend g_target with the deduplicated
(cost, wrt) pairs of the solving targets. -/
def GraphDef_Grad (g : GraphDef) (targets : List TensorRec) : GraphDef :=
  { g with g_target := g.g_target ++ gradPairsOf targets }

/-- The phase decided by GraphDef_Phase: a non-empty phase scope wins
uppercased, otherwise TRAIN when some target has grad-wrt entries, else
TEST. -/
def phaseOf (cfg : Config) (targets : List TensorRec) : String :=
  if cfg.phase_scope ≠ "" then strUpper cfg.phase_scope
  else if targets.any (fun t => 0 < t.grad_wrts.length) then "TRAIN" else "TEST"

/-- Source GraphDef_Phase: append the phase argument. -/
def GraphDef_Phase (cfg : Config) (g : GraphDef) (targets : List TensorRec) : GraphDef :=
  { g with arg := g.arg ++ [("phase", ArgVal.str (phaseOf cfg targets))] }

/-- Source GraphDef_Opt: copy the debug and grad-sharing flags from the
global options. -/
def GraphDef_Opt (cfg : Config) (g : GraphDef) : GraphDef :=
  { g with debug_mode := cfg.debug_mode, share_grads := cfg.share_grads }

/-- Source GraphDef_Device: attach the device option unless the device
option is the literal None string.  The source indexes a two-entry dict
with the device string; only the CPU and CUDA keys occur in valid
configurations (any other string raises KeyError upstream). -/
def GraphDef_Device (cfg : Config) (g : GraphDef) : GraphDef :=
  if cfg.device = "None" then g
  else
    let dev : DeviceOption :=
      { device_type := if cfg.device = "CPU" then 0 else 1,
        gpu_id := cfg.gpu_id,
        random_seed := cfg.random_seed,
        engine := if cfg.use_cudnn then "CUDNN" else "" }
    { g with device_option := some dev }

/-- The hyper-parameter loop of GraphDef_Update: wrap each scalar as a
one-element tensor fed under the prefixed name. -/
def feedHypers (pfx : String) : List (String × Int) → WsState → WsState
  | [], s => s
  | kv :: l, s =>
    feedHypers pfx l (FeedTensor s (PyObj.str (pfx ++ kv.1)) (PyObj.arr [kv.2]))

/-- One synthesized update target: the tensor group, a generated name,
and kwargs = dict(arguments, extra arguments as keyword overrides). -/
def mkUpdateTarget (utype : String) (extra : List (String × ArgVal)) (nm : String)
    (t : List String × List (String × ArgVal)) : UpdateTarget :=
  { type := utype, name := nm, tensor := t.1, arg := dictMerge t.2 extra }

/-- The tuple loop of GraphDef_Update: one update target per tuple with a
fresh operator name. -/
def emitUpdateTargets (utype : String) (extra : List (String × ArgVal)) :
    List (List String × List (String × ArgVal)) → List UpdateTarget → WsState →
    List UpdateTarget × WsState
  | [], acc, s => (acc, s)
  | t :: ts, acc, s =>
    let nm := GetOperatorName s
    emitUpdateTargets utype extra ts (acc ++ [mkUpdateTarget utype extra nm.1 t]) nm.2

/-- Source GraphDef_Update: assign the prefix, add the domain entry to
the extra arguments, feed the hyper-parameters, attach parallel
arguments to the graph when MPI reports an active group, then emit one
update target per updater tuple. -/
def GraphDef_Update (cfg : Config) (g : GraphDef) (updater : Option Updater)
    (s : WsState) : GraphDef × WsState :=
  match updater with
  | none => (g, s)
  | some u =>
    let pfx := g.name ++ "_"
    let extra_arguments := dictSet u.extra_kwargs "domain" (ArgVal.str pfx)
    let s1 := feedHypers pfx u.hyper_params s
    let g1 :=
      if cfg.mpi_init then
        if cfg.mpi_allow.1 ≠ -1 then
          let grp := cfg.mpi_allow.2
          let cg := cfg.mpi_create (grp.headD 0) grp
          { g with arg := g.arg ++
              [("parallel_mode", ArgVal.str cfg.mpi_parallel_mode),
               ("comm", ArgVal.int cg.1), ("group", ArgVal.int cg.2),
               ("root", ArgVal.int (Int.ofNat (grp.headD 0)))] }
        else g
      else g
    let uts := emitUpdateTargets u.type extra_arguments u.tuples [] s1
    ({ g1 with u_target := g1.u_target ++ uts.1 }, uts.2)

/-- Union of extra-target name sets accumulated across the outputs. -/
def unionNames (a b : List String) : List String :=
  a ++ b.filter (fun n => decide (¬ n ∈ a))

/-- Extra targets collected in the output extraction loop. -/
def extraTargetsOf (outs : List TensorRec) : List String :=
  outs.foldl (fun acc o => unionNames acc o.extra_targets) []

/-- The merged expression dict of all requested outputs (all_exprs). -/
def mergedExprsOf (outs : List TensorRec) : List (Nat × Nat) :=
  outs.foldl (fun acc o => dictMerge acc o.expressions) []

/-- The merged expression entries sorted by key. -/
def sortedExprsOf (outs : List TensorRec) : List (Nat × Nat) :=
  sortByKey (mergedExprsOf outs)

/-- The merged, deduplicated, key-sorted forward operator list read off a
heap (lines 249-261 of the source before the deep copy). -/
def forwardOpsOf (heap : Nat → Option OperatorDef) (outs : List TensorRec) :
    List OperatorDef :=
  (sortedExprsOf outs).map (fun p => readOp heap p.2)

/-- One allocation step of the deep copy: write the copied content at
the next free reference. -/
def allocStep (s : WsState) (r : Nat) : WsState :=
  { s with heap := Function.update s.heap s.nextRef (s.heap r), nextRef := s.nextRef + 1 }

/-- Allocate deep copies of the operators at the given references,
returning the fresh references (copy.deepcopy of the operator list). -/
def deepcopyAlloc (s : WsState) : List Nat → List Nat × WsState
  | [] => ([], s)
  | r :: rs =>
    let rec' := deepcopyAlloc (allocStep s r) rs
    (s.nextRef :: rec'.1, rec'.2)

/-- The givens rewrite of one input list: extend with the substituted
names, then delete the first half of the doubled list (the source
behavior, kept verbatim). -/
def rewriteInputs (nd : List (String × String)) (input : List String) : List String :=
  let ext := input ++ input.map (fun i => (dictGet nd i).getD i)
  ext.drop (ext.length / 2)

/-- Apply the givens input rewrite to one operator. -/
def rewriteOp (nd : List (String × String)) (op : OperatorDef) : OperatorDef :=
  { op with input := rewriteInputs nd op.input }

/-- One in-place mutation of the heap: apply the givens rewrite at one
reference. -/
def rewriteStep (nd : List (String × String)) (s : WsState) (r : Nat) : WsState :=
  { s with heap := Function.update s.heap r ((s.heap r).map (rewriteOp nd)) }

/-- Mutate the heap in place at each listed reference, applying the
givens rewrite (the for-loop over forward_ops). -/
def rewriteAt (nd : List (String × String)) (s : WsState) : List Nat → WsState
  | [] => s
  | r :: rs => rewriteAt nd (rewriteStep nd s r) rs

/-- The name substitution dict accumulated over the givens pairs. -/
def ndOf (gv : List (TensorRec × GivenVal)) : List (String × String) :=
  gv.foldl (fun nd p =>
    match p.2 with
    | GivenVal.tensor t => dictSet nd p.1.name t.name
    | GivenVal.array _ => nd) []

/-- The external-input expression dict accumulated over the givens
pairs. -/
def extExprsOf (gv : List (TensorRec × GivenVal)) : List (Nat × Nat) :=
  gv.foldl (fun ee p =>
    match p.2 with
    | GivenVal.tensor t => dictMerge ee t.expressions
    | GivenVal.array _ => ee) []

/-- The loop over givens.items(): tensor replacements record a name
substitution and merge their expressions; raw-array replacements call
FeedTensor with the array in key position and a fresh tensor name in
value position, exactly as the source does. -/
def givensPhase : List (TensorRec × GivenVal) → List (String × String) →
    List (Nat × Nat) → WsState →
    List (String × String) × List (Nat × Nat) × WsState
  | [], nd, ee, s => (nd, ee, s)
  | p :: rest, nd, ee, s =>
    match p.2 with
    | GivenVal.tensor t =>
      givensPhase rest (dictSet nd p.1.name t.name) (dictMerge ee t.expressions) s
    | GivenVal.array a =>
      let tn := GetTensorName s
      givensPhase rest nd ee (FeedTensor tn.2 (PyObj.arr a) (PyObj.str tn.1))

/-- The graph-counter bump done right after naming the graph. -/
def graphIdxStep (s : WsState) : WsState :=
  { s with current_graph_idx := s.current_graph_idx + 1 }

/-- The forward-subgraph stage: deep-copy the sorted merged expression
operators and, when givens are supplied, run the substitution loop,
rewrite the copied forward operators in place, and prepend the
external-input operator references. -/
def forwardStage (outputs : List TensorRec)
    (givens : Option (List (TensorRec × GivenVal))) (s1 : WsState) :
    List Nat × WsState :=
  let cp := deepcopyAlloc s1 ((sortedExprsOf outputs).map Prod.snd)
  match givens with
  | none => (cp.1, cp.2)
  | some gv =>
    let gp := givensPhase gv [] [] cp.2
    (gp.2.1.map Prod.snd ++ cp.1, rewriteAt gp.1 gp.2.2 cp.1)

/-- The straight-line body of the compilation entry point after the
argument-conflict check: name the graph, merge and sort the output
expressions, deep-copy, run the givens rewrite, invoke the gradient
builder when needed, attach metadata on the outputs or updater path, and
register the graph. -/
def compileGraph (cfg : Config)
    (make : List OperatorDef → List String → List OperatorDef × List OperatorDef)
    (outputs : List TensorRec) (givens : Option (List (TensorRec × GivenVal)))
    (updater : Option Updater) (s : WsState) : GraphDef × WsState :=
  let gname := "Graph_" ++ natStr s.current_graph_idx
  let targetNames := outputs.map TensorRec.name ++ extraTargetsOf outputs
  let existing_grads := outputs.any (fun o => 0 < o.grad_wrts.length)
  let fs := forwardStage outputs givens (graphIdxStep s)
  let fwdDefs := fs.1.map (readOp fs.2.heap)
  let fg :=
    if existing_grads then make fwdDefs (outputs.map TensorRec.name) else (fwdDefs, [])
  let g1 : GraphDef :=
    { name := gname, op := fg.1 ++ fg.2, target := targetNames,
      g_target := [], u_target := [], arg := [],
      debug_mode := false, share_grads := false, device_option := none }
  let gs :=
    if 0 < outputs.length then
      (GraphDef_Phase cfg
        (GraphDef_Grad (GraphDef_Opt cfg (GraphDef_Device cfg g1)) outputs) outputs, fs.2)
    else
      match updater with
      | some u =>
        GraphDef_Update cfg (GraphDef_Opt cfg (GraphDef_Device cfg g1)) (some u) fs.2
      | none => (g1, fs.2)
  (gs.1, { gs.2 with graphs := gs.2.graphs ++ [gs.1] })

/-- The compilation entry point.  The inputs argument only feeds the
returned runtime closure, modelled here by the registered graph itself;
the argument-conflict check precedes every state change. -/
def function (cfg : Config)
    (make : List OperatorDef → List String → List OperatorDef × List OperatorDef)
    (inputs outputs : List TensorRec) (givens : Option (List (TensorRec × GivenVal)))
    (updater : Option Updater) (s : WsState) : Except String (GraphDef × WsState) :=
  if 0 < outputs.length ∧ updater.isSome = true then
    Except.error "You can specific either outputs or updater, not both."
  else
    Except.ok (compileGraph cfg make outputs givens updater s)

/-! ### Association-list (Python dict) lemmas -/

theorem mem_dictKeys_iff_get {κ ν : Type} [DecidableEq κ] (d : List (κ × ν)) (k : κ) :
    k ∈ dictKeys d ↔ dictGet d k ≠ none := by
  induction d with
  | nil => simp [dictKeys, dictGet]
  | cons p d ih =>
    simp only [dictKeys, List.map_cons, List.mem_cons, dictGet, List.find?_cons]
    by_cases h : p.1 = k
    · simp [h]
    · simp [h, Ne.symm h, dictKeys, dictGet, ih]

theorem dictGet_eq_none {κ ν : Type} [DecidableEq κ] (d : List (κ × ν)) (k : κ) :
    dictGet d k = none ↔ k ∉ dictKeys d := by
  constructor
  · intro h hk
    exact (mem_dictKeys_iff_get d k).1 hk h
  · intro h
    by_cases hg : dictGet d k = none
    · exact hg
    · exact absurd ((mem_dictKeys_iff_get d k).2 hg) h

theorem dictKeys_dictSet {κ ν : Type} [DecidableEq κ] (d : List (κ × ν)) (k : κ) (v : ν) :
    dictKeys (dictSet d k v) = if k ∈ dictKeys d then dictKeys d else dictKeys d ++ [k] := by
  unfold dictSet
  split
  · rename_i hk
    simp only [hk, if_pos, dictKeys, List.map_map]
    congr 1
    funext p
    by_cases h : p.1 = k <;> simp [h, Function.comp]
  · rename_i hk
    simp [hk, dictKeys]

theorem mem_dictKeys_dictSet {κ ν : Type} [DecidableEq κ] (d : List (κ × ν)) (k k' : κ) (v : ν) :
    k' ∈ dictKeys (dictSet d k v) ↔ k' ∈ dictKeys d ∨ k' = k := by
  rw [dictKeys_dictSet]
  split
  · rename_i hk
    constructor
    · exact fun h => Or.inl h
    · rintro (h | h)
      · exact h
      · exact h ▸ hk
  · simp

theorem nodup_dictKeys_dictSet {κ ν : Type} [DecidableEq κ] (d : List (κ × ν)) (k : κ) (v : ν)
    (h : (dictKeys d).Nodup) : (dictKeys (dictSet d k v)).Nodup := by
  rw [dictKeys_dictSet]
  split
  · exact h
  · rename_i hk
    simpa [List.nodup_append, hk] using h

theorem mem_of_mem_dictSet {κ ν : Type} [DecidableEq κ] {d : List (κ × ν)} {k : κ} {v : ν}
    {p : κ × ν} (h : p ∈ dictSet d k v) : p ∈ d ∨ p = (k, v) := by
  unfold dictSet at h
  split at h
  · obtain ⟨q, hq, hqe⟩ := List.mem_map.1 h
    by_cases hc : q.1 = k
    · simp only [hc, if_pos] at hqe
      exact Or.inr hqe.symm
    · simp only [hc, if_neg, not_false_iff] at hqe
      exact Or.inl (hqe ▸ hq)
  · rcases List.mem_append.1 h with h | h
    · exact Or.inl h
    · exact Or.inr (List.mem_singleton.1 h)

theorem mem_dictSet_self {κ ν : Type} [DecidableEq κ] (d : List (κ × ν)) (k : κ) (v : ν) :
    (k, v) ∈ dictSet d k v := by
  unfold dictSet
  split
  · rename_i hk
    obtain ⟨q, hq, hqe⟩ := List.mem_map.1 hk
    exact List.mem_map.2 ⟨q, hq, by simp [hqe]⟩
  · exact List.mem_append.2 (Or.inr (List.mem_singleton.2 rfl))

theorem mem_dictSet_of_mem {κ ν : Type} [DecidableEq κ] {d : List (κ × ν)} {k : κ} {v : ν}
    {p : κ × ν} (h : p ∈ d) (hp : p.1 ≠ k ∨ p.2 = v) : p ∈ dictSet d k v := by
  unfold dictSet
  split
  · refine List.mem_map.2 ⟨p, h, ?_⟩
    rcases hp with hp | hp
    · simp [hp]
    · by_cases hc : p.1 = k
      · rw [if_pos hc, ← hc, ← hp]
      · simp [hc]
  · exact List.mem_append.2 (Or.inl h)

/-! ### dictMerge lemmas (by induction over the second dict) -/

theorem dictMerge_nil {κ ν : Type} [DecidableEq κ] (a : List (κ × ν)) :
    dictMerge a [] = a := rfl

theorem dictMerge_cons {κ ν : Type} [DecidableEq κ] (a b : List (κ × ν)) (p : κ × ν) :
    dictMerge a (p :: b) = dictMerge (dictSet a p.1 p.2) b := rfl

theorem mem_dictKeys_dictMerge {κ ν : Type} [DecidableEq κ] (a b : List (κ × ν)) (k : κ) :
    k ∈ dictKeys (dictMerge a b) ↔ k ∈ dictKeys a ∨ k ∈ dictKeys b := by
  induction b generalizing a with
  | nil => simp [dictMerge_nil, dictKeys]
  | cons p b ih =>
    rw [dictMerge_cons, ih, mem_dictKeys_dictSet]
    simp [dictKeys, or_assoc]

theorem nodup_dictKeys_dictMerge {κ ν : Type} [DecidableEq κ] (a b : List (κ × ν))
    (h : (dictKeys a).Nodup) : (dictKeys (dictMerge a b)).Nodup := by
  induction b generalizing a with
  | nil => exact h
  | cons p b ih => exact ih _ (nodup_dictKeys_dictSet _ _ _ h)

theorem mem_of_mem_dictMerge {κ ν : Type} [DecidableEq κ] {a b : List (κ × ν)} {p : κ × ν}
    (h : p ∈ dictMerge a b) : p ∈ a ∨ p ∈ b := by
  induction b generalizing a with
  | nil => exact Or.inl h
  | cons q b ih =>
    rw [dictMerge_cons] at h
    rcases ih h with h | h
    · rcases mem_of_mem_dictSet h with h | h
      · exact Or.inl h
      · exact Or.inr (h ▸ List.mem_cons_self q b)
    · exact Or.inr (List.mem_cons_of_mem q h)

theorem mem_dictMerge_left {κ ν : Type} [DecidableEq κ] {a b : List (κ × ν)} {p : κ × ν}
    (h : p ∈ a) (hc : ∀ q ∈ b, q.1 = p.1 → q.2 = p.2) : p ∈ dictMerge a b := by
  induction b generalizing a with
  | nil => exact h
  | cons q b ih =>
    rw [dictMerge_cons]
    refine ih (mem_dictSet_of_mem h ?_) (fun r hr => hc r (List.mem_cons_of_mem q hr))
    by_cases he : q.1 = p.1
    · exact Or.inr ((hc q (List.mem_cons_self q b) he).symm ▸ rfl)
    · exact Or.inl (fun hp => he (hp ▸ rfl))

theorem mem_dictMerge_right {κ ν : Type} [DecidableEq κ] {a b : List (κ × ν)} {p : κ × ν}
    (h : p ∈ b) (hc : ∀ q ∈ b, q.1 = p.1 → q.2 = p.2) : p ∈ dictMerge a b := by
  induction b generalizing a with
  | nil => cases h
  | cons q b ih =>
    rw [dictMerge_cons]
    rcases List.mem_cons.1 h with h | h
    · subst h
      exact mem_dictMerge_left (mem_dictSet_self a p.1 p.2)
        (fun r hr => hc r (List.mem_cons_of_mem p hr))
    · exact ih h (fun r hr => hc r (List.mem_cons_of_mem q hr))

/-! ### Sort lemmas -/

theorem perm_insertByKey (x : Nat × Nat) (l : List (Nat × Nat)) :
    List.Perm (insertByKey x l) (x :: l) := by
  induction l with
  | nil => rfl
  | cons y ys ih =>
    unfold insertByKey
    split
    · exact ((ih.cons y).trans (List.Perm.swap x y ys))
    · rfl

theorem mem_insertByKey {x z : Nat × Nat} {l : List (Nat × Nat)} :
    z ∈ insertByKey x l ↔ z = x ∨ z ∈ l := by
  rw [(perm_insertByKey x l).mem_iff, List.mem_cons]

theorem pairwise_insertByKey (x : Nat × Nat) (l : List (Nat × Nat))
    (h : l.Pairwise (fun p q => p.1 ≤ q.1)) :
    (insertByKey x l).Pairwise (fun p q => p.1 ≤ q.1) := by
  induction l with
  | nil => simp [insertByKey]
  | cons y ys ih =>
    rw [List.pairwise_cons] at h
    unfold insertByKey
    split
    · rename_i hlt
      rw [List.pairwise_cons]
      constructor
      · intro z hz
        rcases mem_insertByKey.1 hz with hz | hz
        · exact hz ▸ Nat.le_of_lt hlt
        · exact h.1 z hz
      · exact ih h.2
    · rename_i hge
      rw [List.pairwise_cons]
      constructor
      · intro z hz
        rcases List.mem_cons.1 hz with hz | hz
        · exact hz ▸ Nat.le_of_not_lt hge
        · exact Nat.le_trans (Nat.le_of_not_lt hge) (h.1 z hz)
      · exact List.pairwise_cons.2 h

theorem perm_sortByKey (l : List (Nat × Nat)) : List.Perm (sortByKey l) l := by
  induction l with
  | nil => rfl
  | cons x xs ih => exact (perm_insertByKey x (sortByKey xs)).trans (ih.cons x)

theorem pairwise_sortByKey (l : List (Nat × Nat)) :
    (sortByKey l).Pairwise (fun p q => p.1 ≤ q.1) := by
  induction l with
  | nil => exact List.Pairwise.nil
  | cons x xs ih => exact pairwise_insertByKey x (sortByKey xs) ih

/-! ### Merged expression dict lemmas -/

theorem mem_dictKeys_exprs_foldl (outs : List TensorRec) (acc : List (Nat × Nat)) (k : Nat) :
    k ∈ dictKeys (outs.foldl (fun a o => dictMerge a o.expressions) acc) ↔
      k ∈ dictKeys acc ∨ ∃ o ∈ outs, k ∈ dictKeys o.expressions := by
  induction outs generalizing acc with
  | nil => simp
  | cons o outs ih =>
    rw [List.foldl_cons, ih, mem_dictKeys_dictMerge]
    constructor
    · rintro ((h | h) | ⟨o2, ho2, h⟩)
      · exact Or.inl h
      · exact Or.inr ⟨o, List.mem_cons_self o outs, h⟩
      · exact Or.inr ⟨o2, List.mem_cons_of_mem o ho2, h⟩
    · rintro (h | ⟨o2, ho2, h⟩)
      · exact Or.inl (Or.inl h)
      · rcases List.mem_cons.1 ho2 with he | he
        · exact Or.inl (Or.inr (he ▸ h))
        · exact Or.inr ⟨o2, he, h⟩

theorem nodup_dictKeys_exprs_foldl (outs : List TensorRec) (acc : List (Nat × Nat))
    (h : (dictKeys acc).Nodup) :
    (dictKeys (outs.foldl (fun a o => dictMerge a o.expressions) acc)).Nodup := by
  induction outs generalizing acc with
  | nil => exact h
  | cons o outs ih => exact ih _ (nodup_dictKeys_dictMerge _ _ h)

theorem mem_of_mem_exprs_foldl {outs : List TensorRec} {acc : List (Nat × Nat)}
    {p : Nat × Nat} (h : p ∈ outs.foldl (fun a o => dictMerge a o.expressions) acc) :
    p ∈ acc ∨ ∃ o ∈ outs, p ∈ o.expressions := by
  induction outs generalizing acc with
  | nil => exact Or.inl h
  | cons o outs ih =>
    rcases ih h with h2 | ⟨o2, ho2, h2⟩
    · rcases mem_of_mem_dictMerge h2 with h3 | h3
      · exact Or.inl h3
      · exact Or.inr ⟨o, List.mem_cons_self o outs, h3⟩
    · exact Or.inr ⟨o2, List.mem_cons_of_mem o ho2, h2⟩

theorem mem_dictKeys_mergedExprsOf (outs : List TensorRec) (k : Nat) :
    k ∈ dictKeys (mergedExprsOf outs) ↔ ∃ o ∈ outs, k ∈ dictKeys o.expressions := by
  unfold mergedExprsOf
  rw [mem_dictKeys_exprs_foldl]
  simp [dictKeys]

theorem nodup_dictKeys_mergedExprsOf (outs : List TensorRec) :
    (dictKeys (mergedExprsOf outs)).Nodup := by
  exact nodup_dictKeys_exprs_foldl outs [] (by simp [dictKeys])

theorem mem_of_mem_mergedExprsOf {outs : List TensorRec} {p : Nat × Nat}
    (h : p ∈ mergedExprsOf outs) : ∃ o ∈ outs, p ∈ o.expressions := by
  rcases mem_of_mem_exprs_foldl h with h | h
  · cases h
  · exact h

theorem mem_of_mem_sortedExprsOf {outs : List TensorRec} {p : Nat × Nat}
    (h : p ∈ sortedExprsOf outs) : ∃ o ∈ outs, p ∈ o.expressions :=
  mem_of_mem_mergedExprsOf ((perm_sortByKey (mergedExprsOf outs)).mem_iff.1 h)

theorem nodup_dictKeys_sortedExprsOf (outs : List TensorRec) :
    (dictKeys (sortedExprsOf outs)).Nodup := by
  have hp : List.Perm (dictKeys (sortedExprsOf outs)) (dictKeys (mergedExprsOf outs)) :=
    (perm_sortByKey (mergedExprsOf outs)).map Prod.fst
  exact hp.nodup_iff.2 (nodup_dictKeys_mergedExprsOf outs)

/-- Topological validity of an operator list: an operator producing an
input of another operator appears strictly earlier. -/
def TopoValid (ops : List OperatorDef) : Prop :=
  ∀ i, i < ops.length → ∀ j, j < ops.length →
    (∃ n ∈ (ops.getD j defaultOp).output, n ∈ (ops.getD i defaultOp).input) → j < i

/-! ### State effects of the compilation stages -/

theorem deepcopyAlloc_nextRef (refs : List Nat) (s : WsState) :
    (deepcopyAlloc s refs).2.nextRef = s.nextRef + refs.length := by
  induction refs generalizing s with
  | nil => rfl
  | cons r rs ih =>
    show (deepcopyAlloc _ rs).2.nextRef = _
    rw [ih, show (allocStep s r).nextRef = s.nextRef + 1 from rfl]
    simp only [List.length_cons]
    omega

theorem deepcopyAlloc_heap_lt (refs : List Nat) (s : WsState) (a : Nat)
    (ha : a < s.nextRef) : (deepcopyAlloc s refs).2.heap a = s.heap a := by
  induction refs generalizing s with
  | nil => rfl
  | cons r rs ih =>
    show (deepcopyAlloc _ rs).2.heap a = _
    rw [ih _ (Nat.lt_succ_of_lt ha)]
    exact Function.update_noteq (Nat.ne_of_lt ha) _ _

theorem deepcopyAlloc_misc (refs : List Nat) (s : WsState) :
    (deepcopyAlloc s refs).2.current_graph_idx = s.current_graph_idx ∧
    (deepcopyAlloc s refs).2.graphs = s.graphs ∧
    (deepcopyAlloc s refs).2.feeds = s.feeds ∧
    (deepcopyAlloc s refs).2.tensor_name_idx = s.tensor_name_idx ∧
    (deepcopyAlloc s refs).2.op_name_idx = s.op_name_idx := by
  induction refs generalizing s with
  | nil => exact ⟨rfl, rfl, rfl, rfl, rfl⟩
  | cons r rs ih => exact ih _

theorem deepcopyAlloc_refs_ge (refs : List Nat) (s : WsState) :
    ∀ a ∈ (deepcopyAlloc s refs).1, s.nextRef ≤ a := by
  induction refs generalizing s with
  | nil => intro a ha; cases ha
  | cons r rs ih =>
    intro a ha
    rcases List.mem_cons.1 ha with ha | ha
    · exact ha ▸ Nat.le_refl _
    · exact Nat.le_of_succ_le (ih _ a ha)

theorem deepcopyAlloc_refs_nodup (refs : List Nat) (s : WsState) :
    (deepcopyAlloc s refs).1.Nodup := by
  induction refs generalizing s with
  | nil => exact List.nodup_nil
  | cons r rs ih =>
    refine List.nodup_cons.2 ⟨?_, ih _⟩
    intro hmem
    have h2 : s.nextRef + 1 ≤ s.nextRef := deepcopyAlloc_refs_ge rs _ s.nextRef hmem
    omega

theorem deepcopyAlloc_reads (refs : List Nat) (s : WsState)
    (h : ∀ r ∈ refs, r < s.nextRef) :
    (deepcopyAlloc s refs).1.map (readOp (deepcopyAlloc s refs).2.heap) =
      refs.map (readOp s.heap) := by
  induction refs generalizing s with
  | nil => rfl
  | cons r rs ih =>
    have hr : r < s.nextRef := h r (List.mem_cons_self r rs)
    have key : deepcopyAlloc s (r :: rs) =
        (s.nextRef :: (deepcopyAlloc (allocStep s r) rs).1,
         (deepcopyAlloc (allocStep s r) rs).2) := rfl
    rw [key, List.map_cons, List.map_cons]
    have hlt : s.nextRef < (allocStep s r).nextRef := Nat.lt_succ_self s.nextRef
    have hhead : readOp (deepcopyAlloc (allocStep s r) rs).2.heap s.nextRef =
        readOp s.heap r := by
      unfold readOp
      rw [deepcopyAlloc_heap_lt rs _ s.nextRef hlt]
      rw [show (allocStep s r).heap s.nextRef = s.heap r from Function.update_same _ _ _]
    have htail := ih (allocStep s r)
      (fun x hx => Nat.lt_succ_of_lt (h x (List.mem_cons_of_mem r hx)))
    rw [hhead, htail]
    refine congrArg₂ _ rfl (List.map_congr_left ?_)
    intro x hx
    unfold readOp
    rw [show (allocStep s r).heap x = Function.update s.heap s.nextRef (s.heap r) x from rfl]
    rw [Function.update_noteq (Nat.ne_of_lt (h x (List.mem_cons_of_mem r hx))) _ _]

theorem rewriteAt_misc (nd : List (String × String)) (refs : List Nat) (s : WsState) :
    (rewriteAt nd s refs).current_graph_idx = s.current_graph_idx ∧
    (rewriteAt nd s refs).graphs = s.graphs ∧
    (rewriteAt nd s refs).feeds = s.feeds ∧
    (rewriteAt nd s refs).tensor_name_idx = s.tensor_name_idx ∧
    (rewriteAt nd s refs).op_name_idx = s.op_name_idx ∧
    (rewriteAt nd s refs).nextRef = s.nextRef := by
  induction refs generalizing s with
  | nil => exact ⟨rfl, rfl, rfl, rfl, rfl, rfl⟩
  | cons r rs ih => exact ih _

theorem rewriteAt_heap_notin (nd : List (String × String)) (refs : List Nat) (s : WsState)
    (a : Nat) (ha : a ∉ refs) : (rewriteAt nd s refs).heap a = s.heap a := by
  induction refs generalizing s with
  | nil => rfl
  | cons r rs ih =>
    have hne : a ≠ r := fun he => ha (he ▸ List.mem_cons_self r rs)
    have htail : a ∉ rs := fun hm => ha (List.mem_cons_of_mem r hm)
    show (rewriteAt nd _ rs).heap a = _
    rw [ih _ htail]
    exact Function.update_noteq hne _ _

theorem rewriteAt_heap_mem (nd : List (String × String)) (refs : List Nat) (s : WsState)
    (hnd : refs.Nodup) (a : Nat) (ha : a ∈ refs) :
    (rewriteAt nd s refs).heap a = (s.heap a).map (rewriteOp nd) := by
  induction refs generalizing s with
  | nil => cases ha
  | cons r rs ih =>
    have hnr : r ∉ rs := (List.nodup_cons.1 hnd).1
    rcases List.mem_cons.1 ha with he | hm
    · subst he
      show (rewriteAt nd _ rs).heap a = _
      rw [rewriteAt_heap_notin nd rs _ a hnr]
      exact Function.update_same _ _ _
    · show (rewriteAt nd _ rs).heap a = _
      rw [ih _ (List.nodup_cons.1 hnd).2 hm]
      have hne : a ≠ r := fun he => hnr (he ▸ hm)
      rw [show (rewriteStep nd s r).heap a =
        Function.update s.heap r ((s.heap r).map (rewriteOp nd)) a from rfl]
      rw [Function.update_noteq hne _ _]

/-- The pure fold computing the givens name dict from an accumulator. -/
theorem givensPhase_nd (gv : List (TensorRec × GivenVal)) (nd : List (String × String))
    (ee : List (Nat × Nat)) (s : WsState) :
    (givensPhase gv nd ee s).1 = gv.foldl (fun n p =>
      match p.2 with
      | GivenVal.tensor t => dictSet n p.1.name t.name
      | GivenVal.array _ => n) nd := by
  induction gv generalizing nd ee s with
  | nil => rfl
  | cons p rest ih =>
    rcases p with ⟨pt, pv⟩
    cases pv with
    | tensor t => exact ih _ _ _
    | array a => exact ih _ _ _

theorem givensPhase_ee (gv : List (TensorRec × GivenVal)) (nd : List (String × String))
    (ee : List (Nat × Nat)) (s : WsState) :
    (givensPhase gv nd ee s).2.1 = gv.foldl (fun e p =>
      match p.2 with
      | GivenVal.tensor t => dictMerge e t.expressions
      | GivenVal.array _ => e) ee := by
  induction gv generalizing nd ee s with
  | nil => rfl
  | cons p rest ih =>
    rcases p with ⟨pt, pv⟩
    cases pv with
    | tensor t => exact ih _ _ _
    | array a => exact ih _ _ _

theorem givensPhase_state (gv : List (TensorRec × GivenVal)) (nd : List (String × String))
    (ee : List (Nat × Nat)) (s : WsState) :
    (givensPhase gv nd ee s).2.2.heap = s.heap ∧
    (givensPhase gv nd ee s).2.2.nextRef = s.nextRef ∧
    (givensPhase gv nd ee s).2.2.current_graph_idx = s.current_graph_idx ∧
    (givensPhase gv nd ee s).2.2.graphs = s.graphs ∧
    (givensPhase gv nd ee s).2.2.op_name_idx = s.op_name_idx := by
  induction gv generalizing nd ee s with
  | nil => exact ⟨rfl, rfl, rfl, rfl, rfl⟩
  | cons p rest ih =>
    rcases p with ⟨pt, pv⟩
    cases pv with
    | tensor t => exact ih _ _ _
    | array a => exact ih _ _ _

theorem feedHypers_state (pfx : String) (l : List (String × Int)) (s : WsState) :
    (feedHypers pfx l s).heap = s.heap ∧
    (feedHypers pfx l s).nextRef = s.nextRef ∧
    (feedHypers pfx l s).current_graph_idx = s.current_graph_idx ∧
    (feedHypers pfx l s).graphs = s.graphs ∧
    (feedHypers pfx l s).op_name_idx = s.op_name_idx ∧
    (feedHypers pfx l s).tensor_name_idx = s.tensor_name_idx := by
  induction l generalizing s with
  | nil => exact ⟨rfl, rfl, rfl, rfl, rfl, rfl⟩
  | cons kv rest ih => exact ih _

theorem emitUpdateTargets_state (utype : String) (extra : List (String × ArgVal))
    (ts : List (List String × List (String × ArgVal))) (acc : List UpdateTarget)
    (s : WsState) :
    (emitUpdateTargets utype extra ts acc s).2.heap = s.heap ∧
    (emitUpdateTargets utype extra ts acc s).2.nextRef = s.nextRef ∧
    (emitUpdateTargets utype extra ts acc s).2.current_graph_idx = s.current_graph_idx ∧
    (emitUpdateTargets utype extra ts acc s).2.graphs = s.graphs ∧
    (emitUpdateTargets utype extra ts acc s).2.feeds = s.feeds ∧
    (emitUpdateTargets utype extra ts acc s).2.tensor_name_idx = s.tensor_name_idx := by
  induction ts generalizing acc s with
  | nil => exact ⟨rfl, rfl, rfl, rfl, rfl, rfl⟩
  | cons t rest ih => exact ih _ _

/-! ### Decimal name-generator injectivity -/

theorem decDigitsRevAux_fuel (n : Nat) : ∀ f1 f2, n < f1 → n < f2 →
    decDigitsRevAux n f1 = decDigitsRevAux n f2 := by
  induction n using Nat.strong_induction_on with
  | _ n ih =>
    intro f1 f2 h1 h2
    match f1, f2 with
    | g1 + 1, g2 + 1 =>
      show (if n < 10 then [n] else (n % 10) :: decDigitsRevAux (n / 10) g1) =
        (if n < 10 then [n] else (n % 10) :: decDigitsRevAux (n / 10) g2)
      by_cases hn : n < 10
      · simp [hn]
      · have hdiv : n / 10 < n :=
          Nat.div_lt_self (Nat.lt_of_lt_of_le (by decide) (Nat.le_of_not_lt hn)) (by decide)
        have hg1 : n / 10 < g1 := by omega
        have hg2 : n / 10 < g2 := by omega
        simp [hn, ih (n / 10) hdiv g1 g2 hg1 hg2]

theorem decDigitsRev_eq (n : Nat) :
    decDigitsRev n = if n < 10 then [n] else (n % 10) :: decDigitsRev (n / 10) := by
  show decDigitsRevAux n (n + 1) = _
  by_cases hn : n < 10
  · simp [decDigitsRevAux, hn]
  · have hdiv : n / 10 < n :=
      Nat.div_lt_self (Nat.lt_of_lt_of_le (by decide) (Nat.le_of_not_lt hn)) (by decide)
    show (if n < 10 then [n] else (n % 10) :: decDigitsRevAux (n / 10) n) = _
    simp only [hn, if_false]
    exact congrArg _ (decDigitsRevAux_fuel (n / 10) n (n / 10 + 1) hdiv (Nat.lt_succ_self _))

/-- Value of a little-endian digit list, the proof-side inverse of
decDigitsRev. -/
def valRev : List Nat → Nat
  | [] => 0
  | d :: ds => d + 10 * valRev ds

theorem valRev_decDigitsRev (n : Nat) : valRev (decDigitsRev n) = n := by
  induction n using Nat.strong_induction_on with
  | _ n ih =>
    rw [decDigitsRev_eq]
    by_cases hn : n < 10
    · simp [hn, valRev]
    · have hdiv : n / 10 < n :=
        Nat.div_lt_self (Nat.lt_of_lt_of_le (by decide) (Nat.le_of_not_lt hn)) (by decide)
      simp only [hn, if_false, valRev, ih (n / 10) hdiv]
      exact Nat.mod_add_div n 10

theorem decDigitsRev_injective : Function.Injective decDigitsRev :=
  Function.LeftInverse.injective valRev_decDigitsRev

theorem decDigitsRev_lt_ten (n : Nat) : ∀ d ∈ decDigitsRev n, d < 10 := by
  induction n using Nat.strong_induction_on with
  | _ n ih =>
    rw [decDigitsRev_eq]
    by_cases hn : n < 10
    · simp [hn]
    · have hdiv : n / 10 < n :=
        Nat.div_lt_self (Nat.lt_of_lt_of_le (by decide) (Nat.le_of_not_lt hn)) (by decide)
      simp only [hn, if_false]
      intro d hd
      rcases List.mem_cons.1 hd with hd | hd
      · exact hd ▸ Nat.mod_lt n (by decide)
      · exact ih (n / 10) hdiv d hd

theorem digitChar_inj_lt : ∀ a < 10, ∀ b < 10, Nat.digitChar a = Nat.digitChar b → a = b := by
  decide

theorem map_digitChar_inj : ∀ l1 l2 : List Nat, (∀ d ∈ l1, d < 10) → (∀ d ∈ l2, d < 10) →
    l1.map Nat.digitChar = l2.map Nat.digitChar → l1 = l2 := by
  intro l1
  induction l1 with
  | nil =>
    intro l2 _ _ h
    cases l2 with
    | nil => rfl
    | cons b bs => simp at h
  | cons a as ih =>
    intro l2 h1 h2 h
    cases l2 with
    | nil => simp at h
    | cons b bs =>
      simp only [List.map_cons, List.cons.injEq] at h
      have ha : a < 10 := h1 a (List.mem_cons_self a as)
      have hb : b < 10 := h2 b (List.mem_cons_self b bs)
      have hab : a = b := digitChar_inj_lt a ha b hb h.1
      have htl : as = bs := ih bs (fun d hd => h1 d (List.mem_cons_of_mem a hd))
        (fun d hd => h2 d (List.mem_cons_of_mem b hd)) h.2
      rw [hab, htl]

theorem natStr_injective : Function.Injective natStr := by
  intro m n h
  unfold natStr at h
  have hdata : (decDigitsRev m).reverse.map Nat.digitChar =
      (decDigitsRev n).reverse.map Nat.digitChar := congrArg String.data h
  have hrev : (decDigitsRev m).reverse = (decDigitsRev n).reverse :=
    map_digitChar_inj _ _
      (fun d hd => decDigitsRev_lt_ten m d (List.mem_reverse.1 hd))
      (fun d hd => decDigitsRev_lt_ten n d (List.mem_reverse.1 hd)) hdata
  exact decDigitsRev_injective (List.reverse_injective hrev)

theorem append_natStr_inj (pre : String) : ∀ m n : Nat,
    pre ++ natStr m = pre ++ natStr n → m = n := by
  intro m n h
  have hdata : pre.data ++ (natStr m).data = pre.data ++ (natStr n).data := by
    have h1 := congrArg String.data h
    simpa [String.data_append] using h1
  have h2 : (natStr m).data = (natStr n).data := List.append_cancel_left hdata
  have h3 : natStr m = natStr n := by
    cases hm : natStr m
    cases hn : natStr n
    rw [hm] at h2
    rw [hn] at h2
    exact congrArg String.mk h2
  exact natStr_injective h3

theorem emitUpdateTargets_spec (utype : String) (extra : List (String × ArgVal))
    (ts : List (List String × List (String × ArgVal))) (acc : List UpdateTarget)
    (s : WsState) :
    (emitUpdateTargets utype extra ts acc s).1 = acc ++ (List.range ts.length).map (fun i =>
      mkUpdateTarget utype extra ("Op_" ++ natStr (s.op_name_idx + i)) (ts.getD i ([], [])))
    ∧ (emitUpdateTargets utype extra ts acc s).2.op_name_idx = s.op_name_idx + ts.length := by
  induction ts generalizing acc s with
  | nil => exact ⟨(List.append_nil acc).symm, rfl⟩
  | cons t ts ih =>
    have key : emitUpdateTargets utype extra (t :: ts) acc s =
        emitUpdateTargets utype extra ts
          (acc ++ [mkUpdateTarget utype extra ("Op_" ++ natStr s.op_name_idx) t])
          { s with op_name_idx := s.op_name_idx + 1 } := rfl
    rw [key]
    obtain ⟨h1, h2⟩ := ih (acc ++ [mkUpdateTarget utype extra ("Op_" ++ natStr s.op_name_idx) t])
      { s with op_name_idx := s.op_name_idx + 1 }
    refine ⟨?_, ?_⟩
    · rw [h1, List.append_assoc]
      refine congrArg _ ?_
      rw [List.length_cons, List.range_succ_eq_map, List.map_cons, List.map_map,
        List.singleton_append]
      congr 1
      refine List.map_congr_left ?_
      intro i hi
      have he : s.op_name_idx + 1 + i = s.op_name_idx + (i + 1) := by omega
      simp only [Function.comp_apply, List.getD_cons_succ, he]
    · rw [h2]
      show s.op_name_idx + 1 + ts.length = s.op_name_idx + (t :: ts).length
      simp only [List.length_cons]
      omega

/-! ### Field preservation of the metadata injectors -/

@[simp] theorem GraphDef_Grad_op (g : GraphDef) (ts : List TensorRec) :
    (GraphDef_Grad g ts).op = g.op := rfl

@[simp] theorem GraphDef_Grad_name (g : GraphDef) (ts : List TensorRec) :
    (GraphDef_Grad g ts).name = g.name := rfl

@[simp] theorem GraphDef_Grad_arg (g : GraphDef) (ts : List TensorRec) :
    (GraphDef_Grad g ts).arg = g.arg := rfl

@[simp] theorem GraphDef_Grad_u_target (g : GraphDef) (ts : List TensorRec) :
    (GraphDef_Grad g ts).u_target = g.u_target := rfl

@[simp] theorem GraphDef_Grad_g_target (g : GraphDef) (ts : List TensorRec) :
    (GraphDef_Grad g ts).g_target = g.g_target ++ gradPairsOf ts := rfl

@[simp] theorem GraphDef_Phase_op (cfg : Config) (g : GraphDef) (ts : List TensorRec) :
    (GraphDef_Phase cfg g ts).op = g.op := rfl

@[simp] theorem GraphDef_Phase_name (cfg : Config) (g : GraphDef) (ts : List TensorRec) :
    (GraphDef_Phase cfg g ts).name = g.name := rfl

@[simp] theorem GraphDef_Phase_arg (cfg : Config) (g : GraphDef) (ts : List TensorRec) :
    (GraphDef_Phase cfg g ts).arg =
      g.arg ++ [("phase", ArgVal.str (phaseOf cfg ts))] := rfl

@[simp] theorem GraphDef_Phase_u_target (cfg : Config) (g : GraphDef) (ts : List TensorRec) :
    (GraphDef_Phase cfg g ts).u_target = g.u_target := rfl

@[simp] theorem GraphDef_Phase_g_target (cfg : Config) (g : GraphDef) (ts : List TensorRec) :
    (GraphDef_Phase cfg g ts).g_target = g.g_target := rfl

@[simp] theorem GraphDef_Opt_op (cfg : Config) (g : GraphDef) :
    (GraphDef_Opt cfg g).op = g.op := rfl

@[simp] theorem GraphDef_Opt_name (cfg : Config) (g : GraphDef) :
    (GraphDef_Opt cfg g).name = g.name := rfl

@[simp] theorem GraphDef_Opt_arg (cfg : Config) (g : GraphDef) :
    (GraphDef_Opt cfg g).arg = g.arg := rfl

@[simp] theorem GraphDef_Opt_u_target (cfg : Config) (g : GraphDef) :
    (GraphDef_Opt cfg g).u_target = g.u_target := rfl

@[simp] theorem GraphDef_Opt_g_target (cfg : Config) (g : GraphDef) :
    (GraphDef_Opt cfg g).g_target = g.g_target := rfl

@[simp] theorem GraphDef_Device_op (cfg : Config) (g : GraphDef) :
    (GraphDef_Device cfg g).op = g.op := by
  unfold GraphDef_Device
  split <;> rfl

@[simp] theorem GraphDef_Device_name (cfg : Config) (g : GraphDef) :
    (GraphDef_Device cfg g).name = g.name := by
  unfold GraphDef_Device
  split <;> rfl

@[simp] theorem GraphDef_Device_arg (cfg : Config) (g : GraphDef) :
    (GraphDef_Device cfg g).arg = g.arg := by
  unfold GraphDef_Device
  split <;> rfl

@[simp] theorem GraphDef_Device_u_target (cfg : Config) (g : GraphDef) :
    (GraphDef_Device cfg g).u_target = g.u_target := by
  unfold GraphDef_Device
  split <;> rfl

@[simp] theorem GraphDef_Device_g_target (cfg : Config) (g : GraphDef) :
    (GraphDef_Device cfg g).g_target = g.g_target := by
  unfold GraphDef_Device
  split <;> rfl

@[simp] theorem graphIdxStep_heap (s : WsState) : (graphIdxStep s).heap = s.heap := rfl

@[simp] theorem graphIdxStep_nextRef (s : WsState) : (graphIdxStep s).nextRef = s.nextRef := rfl

@[simp] theorem graphIdxStep_graphs (s : WsState) : (graphIdxStep s).graphs = s.graphs := rfl

@[simp] theorem graphIdxStep_idx (s : WsState) :
    (graphIdxStep s).current_graph_idx = s.current_graph_idx + 1 := rfl

@[simp] theorem graphIdxStep_op_name_idx (s : WsState) :
    (graphIdxStep s).op_name_idx = s.op_name_idx := rfl

@[simp] theorem graphIdxStep_feeds (s : WsState) : (graphIdxStep s).feeds = s.feeds := rfl

/-! ### Givens fold lemmas -/

theorem extExprs_foldl_sub {gv : List (TensorRec × GivenVal)} {ee : List (Nat × Nat)}
    {p : Nat × Nat}
    (h : p ∈ gv.foldl (fun e pr =>
      match pr.2 with
      | GivenVal.tensor t => dictMerge e t.expressions
      | GivenVal.array _ => e) ee) :
    p ∈ ee ∨ ∃ pr ∈ gv, ∃ t, pr.2 = GivenVal.tensor t ∧ p ∈ t.expressions := by
  induction gv generalizing ee with
  | nil => exact Or.inl h
  | cons q rest ih =>
    rcases q with ⟨qt, qv⟩
    cases qv with
    | tensor t =>
      rcases ih h with h2 | ⟨pr, hpr, t2, ht2, hp2⟩
      · rcases mem_of_mem_dictMerge h2 with h3 | h3
        · exact Or.inl h3
        · exact Or.inr ⟨(qt, GivenVal.tensor t), List.mem_cons_self _ _, t, rfl, h3⟩
      · exact Or.inr ⟨pr, List.mem_cons_of_mem _ hpr, t2, ht2, hp2⟩
    | array a =>
      rcases ih h with h2 | ⟨pr, hpr, t2, ht2, hp2⟩
      · exact Or.inl h2
      · exact Or.inr ⟨pr, List.mem_cons_of_mem _ hpr, t2, ht2, hp2⟩

theorem mem_of_mem_extExprsOf {gv : List (TensorRec × GivenVal)} {p : Nat × Nat}
    (h : p ∈ extExprsOf gv) :
    ∃ pr ∈ gv, ∃ t, pr.2 = GivenVal.tensor t ∧ p ∈ t.expressions := by
  rcases extExprs_foldl_sub h with h | h
  · cases h
  · exact h

theorem extExprs_foldl_mem {gv : List (TensorRec × GivenVal)} {ee : List (Nat × Nat)}
    {p : Nat × Nat}
    (hcons : ∀ pr ∈ gv, ∀ t, pr.2 = GivenVal.tensor t →
      ∀ q ∈ t.expressions, q.1 = p.1 → q.2 = p.2)
    (h : p ∈ ee ∨ ∃ pr ∈ gv, ∃ t, pr.2 = GivenVal.tensor t ∧ p ∈ t.expressions) :
    p ∈ gv.foldl (fun e pr =>
      match pr.2 with
      | GivenVal.tensor t => dictMerge e t.expressions
      | GivenVal.array _ => e) ee := by
  induction gv generalizing ee with
  | nil =>
    rcases h with h | ⟨pr, hpr, t, ht, hp⟩
    · exact h
    · cases hpr
  | cons q rest ih =>
    rcases q with ⟨qt, qv⟩
    have hconsr : ∀ pr ∈ rest, ∀ t, pr.2 = GivenVal.tensor t →
        ∀ q ∈ t.expressions, q.1 = p.1 → q.2 = p.2 :=
      fun pr hpr => hcons pr (List.mem_cons_of_mem _ hpr)
    cases qv with
    | tensor t =>
      have hconsq : ∀ q ∈ t.expressions, q.1 = p.1 → q.2 = p.2 :=
        hcons (qt, GivenVal.tensor t) (List.mem_cons_self _ _) t rfl
      rcases h with h | ⟨pr, hpr, t2, ht2, hp2⟩
      · refine ih hconsr (Or.inl (mem_dictMerge_left h ?_))
        intro q hq hqk
        exact hconsq q hq hqk
      · rcases List.mem_cons.1 hpr with he | he
        · have ht2' : GivenVal.tensor t = GivenVal.tensor t2 := by
            rw [← ht2, he]
          have : t = t2 := by injection ht2'
          subst this
          refine ih hconsr (Or.inl (mem_dictMerge_right ?_ ?_))
          · exact hp2
          · intro q hq hqk
            exact hconsq q hq hqk
        · exact ih hconsr (Or.inr ⟨pr, he, t2, ht2, hp2⟩)
    | array a =>
      rcases h with h | ⟨pr, hpr, t2, ht2, hp2⟩
      · exact ih hconsr (Or.inl h)
      · rcases List.mem_cons.1 hpr with he | he
        · rw [he] at ht2
          cases ht2
        · exact ih hconsr (Or.inr ⟨pr, he, t2, ht2, hp2⟩)

theorem mem_extExprsOf_of_pair {gv : List (TensorRec × GivenVal)} {a : TensorRec}
    {b : TensorRec} {q : Nat × Nat}
    (hpair : (a, GivenVal.tensor b) ∈ gv) (hq : q ∈ b.expressions)
    (hcons : ∀ pr ∈ gv, ∀ t, pr.2 = GivenVal.tensor t →
      ∀ r ∈ t.expressions, r.1 = q.1 → r.2 = q.2) :
    q ∈ extExprsOf gv :=
  extExprs_foldl_mem hcons (Or.inr ⟨(a, GivenVal.tensor b), hpair, b, rfl, hq⟩)

theorem nd_foldl_values {gv : List (TensorRec × GivenVal)} {nd : List (String × String)}
    {p : String × String}
    (h : p ∈ gv.foldl (fun n pr =>
      match pr.2 with
      | GivenVal.tensor t => dictSet n pr.1.name t.name
      | GivenVal.array _ => n) nd) :
    p ∈ nd ∨ ∃ pr ∈ gv, ∃ t, pr.2 = GivenVal.tensor t ∧ p = (pr.1.name, t.name) := by
  induction gv generalizing nd with
  | nil => exact Or.inl h
  | cons q rest ih =>
    rcases q with ⟨qt, qv⟩
    cases qv with
    | tensor t =>
      rcases ih h with h2 | ⟨pr, hpr, t2, ht2, hp2⟩
      · rcases mem_of_mem_dictSet h2 with h3 | h3
        · exact Or.inl h3
        · exact Or.inr ⟨(qt, GivenVal.tensor t), List.mem_cons_self _ _, t, rfl, h3⟩
      · exact Or.inr ⟨pr, List.mem_cons_of_mem _ hpr, t2, ht2, hp2⟩
    | array a =>
      rcases ih h with h2 | ⟨pr, hpr, t2, ht2, hp2⟩
      · exact Or.inl h2
      · exact Or.inr ⟨pr, List.mem_cons_of_mem _ hpr, t2, ht2, hp2⟩

theorem mem_of_mem_ndOf {gv : List (TensorRec × GivenVal)} {p : String × String}
    (h : p ∈ ndOf gv) :
    ∃ pr ∈ gv, ∃ t, pr.2 = GivenVal.tensor t ∧ p = (pr.1.name, t.name) := by
  rcases nd_foldl_values h with h | h
  · cases h
  · exact h

theorem nd_foldl_keys_mono (gv : List (TensorRec × GivenVal)) (nd : List (String × String))
    (k : String) (hk : k ∈ dictKeys nd) :
    k ∈ dictKeys (gv.foldl (fun n pr =>
      match pr.2 with
      | GivenVal.tensor t => dictSet n pr.1.name t.name
      | GivenVal.array _ => n) nd) := by
  induction gv generalizing nd with
  | nil => exact hk
  | cons q rest ih =>
    rcases q with ⟨qt, qv⟩
    cases qv with
    | tensor t => exact ih _ ((mem_dictKeys_dictSet nd qt.name k t.name).2 (Or.inl hk))
    | array arr => exact ih _ hk

theorem nd_foldl_key_mem {gv : List (TensorRec × GivenVal)} {nd : List (String × String)}
    {a b : TensorRec} (hpair : (a, GivenVal.tensor b) ∈ gv) :
    a.name ∈ dictKeys (gv.foldl (fun n pr =>
      match pr.2 with
      | GivenVal.tensor t => dictSet n pr.1.name t.name
      | GivenVal.array _ => n) nd) := by
  induction gv generalizing nd with
  | nil => cases hpair
  | cons q rest ih =>
    rcases q with ⟨qt, qv⟩
    rcases List.mem_cons.1 hpair with he | he
    · have hqt : a = qt := congrArg Prod.fst he
      have hqv : GivenVal.tensor b = qv := congrArg Prod.snd he
      subst hqt
      subst hqv
      exact nd_foldl_keys_mono rest _ _
        ((mem_dictKeys_dictSet nd a.name a.name b.name).2 (Or.inr rfl))
    · exact ih he

theorem mem_dictKeys_ndOf {gv : List (TensorRec × GivenVal)} {a b : TensorRec}
    (hpair : (a, GivenVal.tensor b) ∈ gv) : a.name ∈ dictKeys (ndOf gv) :=
  nd_foldl_key_mem hpair

/-! ### Forward-stage lemmas -/

theorem sorted_refs_lt {outs : List TensorRec} {n : Nat}
    (hwf : ∀ o ∈ outs, ∀ p ∈ o.expressions, p.2 < n) :
    ∀ r ∈ (sortedExprsOf outs).map Prod.snd, r < n := by
  intro r hr
  obtain ⟨p, hp, he⟩ := List.mem_map.1 hr
  obtain ⟨o, ho, hpo⟩ := mem_of_mem_sortedExprsOf hp
  exact he ▸ hwf o ho p hpo

theorem forwardStage_heap_lt (outs : List TensorRec)
    (givens : Option (List (TensorRec × GivenVal))) (s1 : WsState) (a : Nat)
    (ha : a < s1.nextRef) : (forwardStage outs givens s1).2.heap a = s1.heap a := by
  cases givens with
  | none =>
    simp only [forwardStage]
    exact deepcopyAlloc_heap_lt _ _ _ ha
  | some gv =>
    simp only [forwardStage]
    have hnot : a ∉ (deepcopyAlloc s1 ((sortedExprsOf outs).map Prod.snd)).1 := fun hm =>
      absurd (deepcopyAlloc_refs_ge _ _ a hm) (Nat.not_le_of_lt ha)
    rw [rewriteAt_heap_notin _ _ _ _ hnot]
    rw [(givensPhase_state gv [] [] _).1]
    exact deepcopyAlloc_heap_lt _ _ _ ha

theorem forwardStage_nextRef_ge (outs : List TensorRec)
    (givens : Option (List (TensorRec × GivenVal))) (s1 : WsState) :
    s1.nextRef ≤ (forwardStage outs givens s1).2.nextRef := by
  cases givens with
  | none =>
    simp only [forwardStage]
    rw [deepcopyAlloc_nextRef]
    omega
  | some gv =>
    simp only [forwardStage]
    rw [(rewriteAt_misc _ _ _).2.2.2.2.2]
    rw [(givensPhase_state gv [] [] _).2.1]
    rw [deepcopyAlloc_nextRef]
    omega

theorem forwardStage_misc (outs : List TensorRec)
    (givens : Option (List (TensorRec × GivenVal))) (s1 : WsState) :
    (forwardStage outs givens s1).2.current_graph_idx = s1.current_graph_idx ∧
    (forwardStage outs givens s1).2.graphs = s1.graphs ∧
    (forwardStage outs givens s1).2.op_name_idx = s1.op_name_idx := by
  cases givens with
  | none =>
    simp only [forwardStage]
    exact ⟨(deepcopyAlloc_misc _ _).1, (deepcopyAlloc_misc _ _).2.1,
      (deepcopyAlloc_misc _ _).2.2.2.2⟩
  | some gv =>
    simp only [forwardStage]
    refine ⟨?_, ?_, ?_⟩
    · rw [(rewriteAt_misc _ _ _).1, (givensPhase_state gv [] [] _).2.2.1,
        (deepcopyAlloc_misc _ _).1]
    · rw [(rewriteAt_misc _ _ _).2.1, (givensPhase_state gv [] [] _).2.2.2.1,
        (deepcopyAlloc_misc _ _).2.1]
    · rw [(rewriteAt_misc _ _ _).2.2.2.2.1, (givensPhase_state gv [] [] _).2.2.2.2,
        (deepcopyAlloc_misc _ _).2.2.2.2]

theorem forwardStage_none_defs (outs : List TensorRec) (s1 : WsState)
    (hwf : ∀ o ∈ outs, ∀ p ∈ o.expressions, p.2 < s1.nextRef) :
    (forwardStage outs none s1).1.map (readOp (forwardStage outs none s1).2.heap) =
      forwardOpsOf s1.heap outs := by
  simp only [forwardStage]
  rw [deepcopyAlloc_reads _ _ (sorted_refs_lt hwf), List.map_map]
  exact List.map_congr_left (fun p _ => rfl)

theorem givensPhase_nd0 (gv : List (TensorRec × GivenVal)) (s : WsState) :
    (givensPhase gv [] [] s).1 = ndOf gv := by
  rw [givensPhase_nd]
  rfl

theorem givensPhase_ee0 (gv : List (TensorRec × GivenVal)) (s : WsState) :
    (givensPhase gv [] [] s).2.1 = extExprsOf gv := by
  rw [givensPhase_ee]
  rfl

theorem rewriteOp_defaultOp (nd : List (String × String)) :
    rewriteOp nd defaultOp = defaultOp := by
  simp [rewriteOp, rewriteInputs, defaultOp]

theorem readOp_map_rewrite (nd : List (String × String)) (o : Option OperatorDef) :
    (o.map (rewriteOp nd)).getD defaultOp = rewriteOp nd (o.getD defaultOp) := by
  cases o with
  | none => simp [rewriteOp_defaultOp]
  | some op => rfl

theorem forwardStage_some_defs (outs : List TensorRec) (gv : List (TensorRec × GivenVal))
    (s1 : WsState)
    (hwf : ∀ o ∈ outs, ∀ p ∈ o.expressions, p.2 < s1.nextRef)
    (hwfg : ∀ pr ∈ gv, ∀ t, pr.2 = GivenVal.tensor t →
      ∀ q ∈ t.expressions, q.2 < s1.nextRef) :
    (forwardStage outs (some gv) s1).1.map (readOp (forwardStage outs (some gv) s1).2.heap) =
      (extExprsOf gv).map (fun p => readOp s1.heap p.2) ++
      (forwardOpsOf s1.heap outs).map (rewriteOp (ndOf gv)) := by
  simp only [forwardStage]
  rw [givensPhase_nd0, givensPhase_ee0, List.map_append, List.map_map]
  refine congrArg₂ _ ?_ ?_
  · refine List.map_congr_left ?_
    intro p hp
    obtain ⟨pr, hpr, t, ht, hpe⟩ := mem_of_mem_extExprsOf hp
    have hlt : p.2 < s1.nextRef := hwfg pr hpr t ht p hpe
    have hnot : p.2 ∉ (deepcopyAlloc s1 ((sortedExprsOf outs).map Prod.snd)).1 := fun hm =>
      absurd (deepcopyAlloc_refs_ge _ _ p.2 hm) (Nat.not_le_of_lt hlt)
    show readOp _ p.2 = readOp s1.heap p.2
    unfold readOp
    rw [rewriteAt_heap_notin _ _ _ _ hnot, (givensPhase_state gv [] [] _).1,
      deepcopyAlloc_heap_lt _ _ _ hlt]
  · have hstep : ∀ r ∈ (deepcopyAlloc s1 ((sortedExprsOf outs).map Prod.snd)).1,
        readOp (rewriteAt (ndOf gv)
          (givensPhase gv [] [] (deepcopyAlloc s1 ((sortedExprsOf outs).map Prod.snd)).2).2.2
          (deepcopyAlloc s1 ((sortedExprsOf outs).map Prod.snd)).1).heap r =
        rewriteOp (ndOf gv)
          (readOp (deepcopyAlloc s1 ((sortedExprsOf outs).map Prod.snd)).2.heap r) := by
      intro r hr
      unfold readOp
      rw [rewriteAt_heap_mem _ _ _ (deepcopyAlloc_refs_nodup _ _) r hr,
        (givensPhase_state gv [] [] _).1, readOp_map_rewrite]
    calc (deepcopyAlloc s1 ((sortedExprsOf outs).map Prod.snd)).1.map
          (readOp (rewriteAt (ndOf gv)
            (givensPhase gv [] [] (deepcopyAlloc s1 ((sortedExprsOf outs).map Prod.snd)).2).2.2
            (deepcopyAlloc s1 ((sortedExprsOf outs).map Prod.snd)).1).heap)
        = (deepcopyAlloc s1 ((sortedExprsOf outs).map Prod.snd)).1.map
            (fun r => rewriteOp (ndOf gv)
              (readOp (deepcopyAlloc s1 ((sortedExprsOf outs).map Prod.snd)).2.heap r)) :=
          List.map_congr_left hstep
      _ = ((deepcopyAlloc s1 ((sortedExprsOf outs).map Prod.snd)).1.map
            (readOp (deepcopyAlloc s1 ((sortedExprsOf outs).map Prod.snd)).2.heap)).map
            (rewriteOp (ndOf gv)) := by
          rw [List.map_map]
          exact List.map_congr_left (fun r _ => rfl)
      _ = (((sortedExprsOf outs).map Prod.snd).map (readOp s1.heap)).map
            (rewriteOp (ndOf gv)) := by
          rw [deepcopyAlloc_reads _ _ (sorted_refs_lt hwf)]
      _ = (forwardOpsOf s1.heap outs).map (rewriteOp (ndOf gv)) := by
          simp only [forwardOpsOf, List.map_map]
          exact List.map_congr_left (fun p _ => rfl)

theorem GraphDef_Update_op (cfg : Config) (g : GraphDef) (upd : Option Updater)
    (s : WsState) : (GraphDef_Update cfg g upd s).1.op = g.op := by
  cases upd with
  | none => rfl
  | some u =>
    simp only [GraphDef_Update]
    split
    · split
      · rfl
      · rfl
    · rfl

theorem GraphDef_Update_name (cfg : Config) (g : GraphDef) (upd : Option Updater)
    (s : WsState) : (GraphDef_Update cfg g upd s).1.name = g.name := by
  cases upd with
  | none => rfl
  | some u =>
    simp only [GraphDef_Update]
    split
    · split
      · rfl
      · rfl
    · rfl

theorem GraphDef_Update_state (cfg : Config) (g : GraphDef) (upd : Option Updater)
    (s : WsState) :
    (GraphDef_Update cfg g upd s).2.heap = s.heap ∧
    (GraphDef_Update cfg g upd s).2.nextRef = s.nextRef ∧
    (GraphDef_Update cfg g upd s).2.graphs = s.graphs ∧
    (GraphDef_Update cfg g upd s).2.current_graph_idx = s.current_graph_idx := by
  cases upd with
  | none => exact ⟨rfl, rfl, rfl, rfl⟩
  | some u =>
    simp only [GraphDef_Update]
    refine ⟨?_, ?_, ?_, ?_⟩
    · rw [(emitUpdateTargets_state _ _ _ _ _).1, (feedHypers_state _ _ _).1]
    · rw [(emitUpdateTargets_state _ _ _ _ _).2.1, (feedHypers_state _ _ _).2.1]
    · rw [(emitUpdateTargets_state _ _ _ _ _).2.2.2.1, (feedHypers_state _ _ _).2.2.2.1]
    · rw [(emitUpdateTargets_state _ _ _ _ _).2.2.1, (feedHypers_state _ _ _).2.2.1]

/-! ### Characterizations of the compiled graph -/

theorem function_ok_inv {cfg : Config}
    {make : List OperatorDef → List String → List OperatorDef × List OperatorDef}
    {inputs outputs : List TensorRec} {givens : Option (List (TensorRec × GivenVal))}
    {updater : Option Updater} {s : WsState} {g : GraphDef} {s2 : WsState}
    (h : function cfg make inputs outputs givens updater s = Except.ok (g, s2)) :
    (g, s2) = compileGraph cfg make outputs givens updater s := by
  unfold function at h
  split at h
  · cases h
  · injection h with h
    exact h.symm

theorem compileGraph_op (cfg : Config)
    (make : List OperatorDef → List String → List OperatorDef × List OperatorDef)
    (outputs : List TensorRec) (givens : Option (List (TensorRec × GivenVal)))
    (updater : Option Updater) (s : WsState) :
    (compileGraph cfg make outputs givens updater s).1.op =
      (if outputs.any (fun o => 0 < o.grad_wrts.length)
       then (make ((forwardStage outputs givens (graphIdxStep s)).1.map
              (readOp (forwardStage outputs givens (graphIdxStep s)).2.heap))
              (outputs.map TensorRec.name)).1 ++
            (make ((forwardStage outputs givens (graphIdxStep s)).1.map
              (readOp (forwardStage outputs givens (graphIdxStep s)).2.heap))
              (outputs.map TensorRec.name)).2
       else (forwardStage outputs givens (graphIdxStep s)).1.map
              (readOp (forwardStage outputs givens (graphIdxStep s)).2.heap)) := by
  simp only [compileGraph]
  split
  · simp only [GraphDef_Phase_op, GraphDef_Grad_op, GraphDef_Opt_op, GraphDef_Device_op]
    split
    · rfl
    · exact List.append_nil _
  · cases updater with
    | none =>
      simp only []
      split
      · rfl
      · exact List.append_nil _
    | some u =>
      simp only [GraphDef_Update_op, GraphDef_Opt_op, GraphDef_Device_op]
      split
      · rfl
      · exact List.append_nil _

theorem compileGraph_heap_lt (cfg : Config)
    (make : List OperatorDef → List String → List OperatorDef × List OperatorDef)
    (outputs : List TensorRec) (givens : Option (List (TensorRec × GivenVal)))
    (updater : Option Updater) (s : WsState) (r : Nat) (hr : r < s.nextRef) :
    (compileGraph cfg make outputs givens updater s).2.heap r = s.heap r := by
  simp only [compileGraph]
  split
  · exact forwardStage_heap_lt outputs givens (graphIdxStep s) r hr
  · cases updater with
    | none => exact forwardStage_heap_lt outputs givens (graphIdxStep s) r hr
    | some u =>
      rw [(GraphDef_Update_state _ _ _ _).1]
      exact forwardStage_heap_lt outputs givens (graphIdxStep s) r hr

theorem compileGraph_nextRef_ge (cfg : Config)
    (make : List OperatorDef → List String → List OperatorDef × List OperatorDef)
    (outputs : List TensorRec) (givens : Option (List (TensorRec × GivenVal)))
    (updater : Option Updater) (s : WsState) :
    s.nextRef ≤ (compileGraph cfg make outputs givens updater s).2.nextRef := by
  simp only [compileGraph]
  split
  · exact forwardStage_nextRef_ge outputs givens (graphIdxStep s)
  · cases updater with
    | none => exact forwardStage_nextRef_ge outputs givens (graphIdxStep s)
    | some u =>
      rw [(GraphDef_Update_state _ _ _ _).2.1]
      exact forwardStage_nextRef_ge outputs givens (graphIdxStep s)

theorem compileGraph_graphs (cfg : Config)
    (make : List OperatorDef → List String → List OperatorDef × List OperatorDef)
    (outputs : List TensorRec) (givens : Option (List (TensorRec × GivenVal)))
    (updater : Option Updater) (s : WsState) :
    (compileGraph cfg make outputs givens updater s).2.graphs =
      s.graphs ++ [(compileGraph cfg make outputs givens updater s).1] := by
  simp only [compileGraph]
  split
  · rw [(forwardStage_misc outputs givens (graphIdxStep s)).2.1]
    rfl
  · cases updater with
    | none =>
      rw [(forwardStage_misc outputs givens (graphIdxStep s)).2.1]
      rfl
    | some u =>
      rw [(GraphDef_Update_state _ _ _ _).2.2.1]
      rw [(forwardStage_misc outputs givens (graphIdxStep s)).2.1]
      rfl

/-! ### Concrete fixtures used by witnesses and counterexamples -/

/-- A two-operator heap: operator 0 produces x, operator 1 consumes x
and produces y. -/
def exHeap : Nat → Option OperatorDef := fun r =>
  if r = 0 then some { type := "Variable", input := [], output := ["x"], arg := [] }
  else if r = 1 then some { type := "Mul", input := ["x"], output := ["y"], arg := [] }
  else none

def exSt : WsState :=
  { current_graph_idx := 0, graphs := [], feeds := [], tensor_name_idx := 0,
    op_name_idx := 0, heap := exHeap, nextRef := 2 }

def exCfg : Config :=
  { device := "None", gpu_id := 0, random_seed := 3, use_cudnn := false,
    debug_mode := false, share_grads := false, phase_scope := "",
    mpi_init := false, mpi_allow := (-1, []), mpi_parallel_mode := "",
    mpi_create := fun _ _ => (0, 0) }

def exMake : List OperatorDef → List String → List OperatorDef × List OperatorDef :=
  fun f _ => (f, [])

def exX : TensorRec :=
  { name := "x", expressions := [(0, 0)], extra_targets := [], grad_wrts := [] }

def exY : TensorRec :=
  { name := "y", expressions := [(0, 0), (1, 1)], extra_targets := [], grad_wrts := [] }

def exUpd : Updater :=
  { type := "SGD", extra_kwargs := [("lr", ArgVal.int 2)], hyper_params := [],
    tuples := [(["w"], [("lr", ArgVal.int 1)])] }

/-! ### Claim theorems -/

/-- C7: calling function with a non-empty outputs list and an updater
fails immediately with the argument-conflict RuntimeError; in the model
the error return carries no new state, matching the source where the
raise precedes the GraphDef construction, the counter increment and the
registration. -/
theorem c7_conflict_error_before_any_work (cfg : Config)
    (make : List OperatorDef → List String → List OperatorDef × List OperatorDef)
    (inputs outputs : List TensorRec) (givens : Option (List (TensorRec × GivenVal)))
    (u : Updater) (s : WsState) (h : 0 < outputs.length) :
    function cfg make inputs outputs givens (some u) s =
      Except.error "You can specific either outputs or updater, not both." := by
  unfold function
  rw [if_pos ⟨h, rfl⟩]

/-- Witness for C7 at a concrete input. -/
theorem c7_conflict_error_before_any_work_witness :
    0 < [exY].length ∧
    function exCfg exMake [] [exY] none (some exUpd) exSt =
      Except.error "You can specific either outputs or updater, not both." :=
  ⟨by decide, c7_conflict_error_before_any_work exCfg exMake [] [exY] none exUpd exSt
    (by decide)⟩

/-- The graph registered by an empty call: fresh name, everything else at
its proto3 default. -/
def emptyGraphDef (n : String) : GraphDef :=
  { name := n, op := [], target := [], g_target := [], u_target := [], arg := [],
    debug_mode := false, share_grads := false, device_option := none }

/-- C10: calling function with no outputs and no updater succeeds; a
graph named Graph_n with empty operator, target, gradient-target and
update-target lists, no argument, device, debug or phase metadata, is
registered with the runtime, the graph counter is incremented, and the
call returns normally (the callable). -/
theorem c10_empty_call_registers_empty_graph (cfg : Config)
    (make : List OperatorDef → List String → List OperatorDef × List OperatorDef)
    (inputs : List TensorRec) (s : WsState) :
    function cfg make inputs [] none none s = Except.ok
      (emptyGraphDef ("Graph_" ++ natStr s.current_graph_idx),
       { s with current_graph_idx := s.current_graph_idx + 1,
                graphs := s.graphs ++ [emptyGraphDef ("Graph_" ++ natStr s.current_graph_idx)] }) :=
  rfl

theorem compileGraph_arg_outputs (cfg : Config)
    (make : List OperatorDef → List String → List OperatorDef × List OperatorDef)
    (outputs : List TensorRec) (givens : Option (List (TensorRec × GivenVal)))
    (updater : Option Updater) (s : WsState) (houts : 0 < outputs.length) :
    (compileGraph cfg make outputs givens updater s).1.arg =
      [("phase", ArgVal.str (phaseOf cfg outputs))] := by
  simp only [compileGraph]
  rw [if_pos houts]
  simp only [GraphDef_Phase_arg, GraphDef_Grad_arg, GraphDef_Opt_arg, GraphDef_Device_arg]
  rfl

/-- C6: for every compilation with non-empty outputs the compiled graph
carries exactly one phase argument; with no phase override the phase is
TRAIN when some requested output has grad-wrt entries and TEST when none
has, and a non-empty override always wins, uppercased (in particular an
explicit train override yields TRAIN). -/
theorem c6_phase_decision (cfg : Config)
    (make : List OperatorDef → List String → List OperatorDef × List OperatorDef)
    (inputs outputs : List TensorRec) (givens : Option (List (TensorRec × GivenVal)))
    (updater : Option Updater) (s : WsState) (g : GraphDef) (s2 : WsState)
    (hok : function cfg make inputs outputs givens updater s = Except.ok (g, s2))
    (houts : 0 < outputs.length) :
    g.arg = [("phase", ArgVal.str (phaseOf cfg outputs))]
    ∧ (cfg.phase_scope = "" → (∃ o ∈ outputs, 0 < o.grad_wrts.length) →
        phaseOf cfg outputs = "TRAIN")
    ∧ (cfg.phase_scope = "" → (∀ o ∈ outputs, o.grad_wrts.length = 0) →
        phaseOf cfg outputs = "TEST")
    ∧ (cfg.phase_scope ≠ "" → phaseOf cfg outputs = strUpper cfg.phase_scope)
    ∧ (cfg.phase_scope = "train" → phaseOf cfg outputs = "TRAIN") := by
  have hinv := function_ok_inv hok
  have hg : g = (compileGraph cfg make outputs givens updater s).1 := congrArg Prod.fst hinv
  refine ⟨?_, ?_, ?_, ?_, ?_⟩
  · rw [hg]
    exact compileGraph_arg_outputs cfg make outputs givens updater s houts
  · intro hsc ⟨o, ho, hgr⟩
    unfold phaseOf
    rw [if_neg (fun hne => hne hsc)]
    rw [if_pos]
    rw [List.any_eq_true]
    exact ⟨o, ho, by simpa using hgr⟩
  · intro hsc hall
    unfold phaseOf
    rw [if_neg (fun hne => hne hsc)]
    rw [if_neg]
    intro hany
    rw [List.any_eq_true] at hany
    obtain ⟨o, ho, hgr⟩ := hany
    have := hall o ho
    simp at hgr
    omega
  · intro hne
    unfold phaseOf
    rw [if_pos hne]
  · intro hsc
    unfold phaseOf
    rw [if_pos (by rw [hsc]; decide)]
    rw [hsc]
    decide

/-- C1: under the stated precondition (keys in construction order and
every operator constructed after the producers of its inputs, phrased
as: whenever a merged-entry operator produces an input of another
merged-entry operator, the producer has the strictly smaller key), the
merged forward list of lines 249-261 contains each distinct operator key
exactly once, its key set is exactly the union of the requested outputs
expression keys, and the operator list read off the heap is a valid
topological order. -/
theorem c1_merge_dedup_topological
    (heap : Nat → Option OperatorDef) (outs : List TensorRec)
    (htopo : ∀ o ∈ outs, ∀ o2 ∈ outs, ∀ p ∈ o.expressions, ∀ q ∈ o2.expressions,
      (∃ n ∈ (readOp heap q.2).output, n ∈ (readOp heap p.2).input) → q.1 < p.1) :
    ((sortedExprsOf outs).map Prod.fst).Nodup
    ∧ (∀ k, k ∈ (sortedExprsOf outs).map Prod.fst ↔
        ∃ o ∈ outs, k ∈ o.expressions.map Prod.fst)
    ∧ TopoValid (forwardOpsOf heap outs) := by
  refine ⟨nodup_dictKeys_sortedExprsOf outs, ?_, ?_⟩
  · intro k
    have hp := (perm_sortByKey (mergedExprsOf outs)).map Prod.fst
    rw [show (sortedExprsOf outs).map Prod.fst =
      List.map Prod.fst (sortByKey (mergedExprsOf outs)) from rfl, hp.mem_iff]
    exact mem_dictKeys_mergedExprsOf outs k
  · intro i hi j hj hex
    obtain ⟨n, hn1, hn2⟩ := hex
    have hlen : (forwardOpsOf heap outs).length = (sortedExprsOf outs).length :=
      List.length_map _ _
    have hi2 : i < (sortedExprsOf outs).length := hlen ▸ hi
    have hj2 : j < (sortedExprsOf outs).length := hlen ▸ hj
    have hgi : (forwardOpsOf heap outs).getD i defaultOp =
        readOp heap ((sortedExprsOf outs)[i]).2 := by
      simp [List.getD_eq_getElem?_getD, List.getElem?_eq_getElem hi2, forwardOpsOf,
        List.getElem_map]
    have hgj : (forwardOpsOf heap outs).getD j defaultOp =
        readOp heap ((sortedExprsOf outs)[j]).2 := by
      simp [List.getD_eq_getElem?_getD, List.getElem?_eq_getElem hj2, forwardOpsOf,
        List.getElem_map]
    rw [hgi] at hn2
    rw [hgj] at hn1
    obtain ⟨oi, hoi, hpi⟩ := mem_of_mem_sortedExprsOf (List.getElem_mem hi2)
    obtain ⟨oj, hoj, hpj⟩ := mem_of_mem_sortedExprsOf (List.getElem_mem hj2)
    have hkey : ((sortedExprsOf outs)[j]).1 < ((sortedExprsOf outs)[i]).1 :=
      htopo oi hoi oj hoj _ hpi _ hpj ⟨n, hn1, hn2⟩
    by_contra hno
    have hij : i ≤ j := Nat.le_of_not_lt hno
    rcases Nat.lt_or_eq_of_le hij with hlt | heq
    · have hs := (List.pairwise_iff_getElem.1 (pairwise_sortByKey (mergedExprsOf outs)))
        i j hi2 hj2 hlt
      exact Nat.lt_irrefl _ (Nat.lt_of_lt_of_le hkey hs)
    · subst heq
      exact Nat.lt_irrefl _ hkey

/-- Witness for C1: two outputs with overlapping dependency subgraphs. -/
theorem c1_merge_dedup_topological_witness :
    ((sortedExprsOf [exY, exX]).map Prod.fst).Nodup
    ∧ (∀ k, k ∈ (sortedExprsOf [exY, exX]).map Prod.fst ↔
        ∃ o ∈ [exY, exX], k ∈ o.expressions.map Prod.fst)
    ∧ TopoValid (forwardOpsOf exHeap [exY, exX]) :=
  c1_merge_dedup_topological exHeap [exY, exX] (by decide)

/-- C9: compilation never mutates existing heap cells: every operator
reference allocated before the call reads the same definition after the
call, for any outputs, givens and updater; the deep copy confines all
destructive rewriting to freshly allocated references. -/
theorem c9_no_mutation_of_expressions (cfg : Config)
    (make : List OperatorDef → List String → List OperatorDef × List OperatorDef)
    (inputs outputs : List TensorRec) (givens : Option (List (TensorRec × GivenVal)))
    (updater : Option Updater) (s : WsState) (g : GraphDef) (s2 : WsState)
    (hok : function cfg make inputs outputs givens updater s = Except.ok (g, s2)) :
    ∀ r, r < s.nextRef → s2.heap r = s.heap r := by
  have e := function_ok_inv hok
  have hs2 : s2 = (compileGraph cfg make outputs givens updater s).2 := congrArg Prod.snd e
  intro r hr
  rw [hs2]
  exact compileGraph_heap_lt cfg make outputs givens updater s r hr

/-- The heap and state used by the givens-path witnesses: operator 2
produces the replacement variable b. -/
def exHeapB : Nat → Option OperatorDef := fun r =>
  if r = 0 then some { type := "Variable", input := [], output := ["x"], arg := [] }
  else if r = 1 then some { type := "Mul", input := ["x"], output := ["y"], arg := [] }
  else if r = 2 then some { type := "VariableB", input := [], output := ["b"], arg := [] }
  else none

def exStB : WsState := { exSt with heap := exHeapB, nextRef := 3 }

def exB : TensorRec :=
  { name := "b", expressions := [(5, 2)], extra_targets := [], grad_wrts := [] }

/-- Witness for C9 on the givens path, which exercises the in-place
rewrite: cell 1 (the Mul operator of the original expression) is
unchanged by the compilation. -/
theorem c9_no_mutation_of_expressions_witness :
    (1 : Nat) < exStB.nextRef ∧
    (compileGraph exCfg exMake [exY] (some [(exX, GivenVal.tensor exB)]) none exStB).2.heap 1 =
      exStB.heap 1 :=
  ⟨by decide,
   c9_no_mutation_of_expressions exCfg exMake [] [exY] (some [(exX, GivenVal.tensor exB)])
     none exStB _ _ rfl 1 (by decide)⟩

theorem forwardOpsOf_congr {outs : List TensorRec} {heap1 heap2 : Nat → Option OperatorDef}
    (hagree : ∀ o ∈ outs, ∀ p ∈ o.expressions, heap1 p.2 = heap2 p.2) :
    forwardOpsOf heap1 outs = forwardOpsOf heap2 outs := by
  unfold forwardOpsOf
  refine List.map_congr_left ?_
  intro p hp
  obtain ⟨o, ho, hpo⟩ := mem_of_mem_sortedExprsOf hp
  unfold readOp
  rw [hagree o ho p hpo]

/-- C8: compiling the same outputs twice in succession, with well-formed
expression references and no intervening mutation, yields two graphs
with identical operator lists (the merge and sort step is
deterministic; only the graph name differs). -/
theorem c8_deterministic_recompilation (cfg : Config)
    (make : List OperatorDef → List String → List OperatorDef × List OperatorDef)
    (inputs outputs : List TensorRec) (s : WsState) (g1 : GraphDef) (t1 : WsState)
    (g2 : GraphDef) (t2 : WsState)
    (hwf : ∀ o ∈ outputs, ∀ p ∈ o.expressions, p.2 < s.nextRef)
    (h1 : function cfg make inputs outputs none none s = Except.ok (g1, t1))
    (h2 : function cfg make inputs outputs none none t1 = Except.ok (g2, t2)) :
    g1.op = g2.op := by
  have e1 := function_ok_inv h1
  have e2 := function_ok_inv h2
  have hg1 : g1 = (compileGraph cfg make outputs none none s).1 := congrArg Prod.fst e1
  have ht1 : t1 = (compileGraph cfg make outputs none none s).2 := congrArg Prod.snd e1
  have hg2 : g2 = (compileGraph cfg make outputs none none t1).1 := congrArg Prod.fst e2
  have hmono : s.nextRef ≤ t1.nextRef := by
    rw [ht1]
    exact compileGraph_nextRef_ge cfg make outputs none none s
  have hwf1 : ∀ o ∈ outputs, ∀ p ∈ o.expressions, p.2 < t1.nextRef :=
    fun o ho p hp => Nat.lt_of_lt_of_le (hwf o ho p hp) hmono
  have hagree : ∀ o ∈ outputs, ∀ p ∈ o.expressions, t1.heap p.2 = s.heap p.2 := by
    intro o ho p hp
    rw [ht1]
    exact compileGraph_heap_lt cfg make outputs none none s p.2 (hwf o ho p hp)
  rw [hg1, hg2, compileGraph_op, compileGraph_op]
  rw [forwardStage_none_defs outputs (graphIdxStep s) hwf]
  rw [forwardStage_none_defs outputs (graphIdxStep t1) hwf1]
  simp only [graphIdxStep_heap]
  rw [forwardOpsOf_congr hagree]

/-- Witness for C8: the two successive plain compilations of y produce
the same operator list. -/
theorem c8_deterministic_recompilation_witness :
    (∀ o ∈ [exY], ∀ p ∈ o.expressions, p.2 < exSt.nextRef) ∧
    (compileGraph exCfg exMake [exY] none none exSt).1.op =
      (compileGraph exCfg exMake [exY] none none
        (compileGraph exCfg exMake [exY] none none exSt).2).1.op :=
  ⟨by decide,
   c8_deterministic_recompilation exCfg exMake [] [exY] exSt _ _ _ _ (by decide) rfl rfl⟩

theorem rewriteInputs_eq_map (nd : List (String × String)) (input : List String) :
    rewriteInputs nd input = input.map (fun i => (dictGet nd i).getD i) := by
  show (input ++ input.map (fun i => (dictGet nd i).getD i)).drop
    ((input ++ input.map (fun i => (dictGet nd i).getD i)).length / 2) =
    input.map (fun i => (dictGet nd i).getD i)
  have hlen : (input ++ input.map (fun i => (dictGet nd i).getD i)).length =
      input.length + input.length := by
    rw [List.length_append, List.length_map]
  rw [hlen]
  have hhalf : (input.length + input.length) / 2 = input.length := by omega
  rw [hhalf]
  exact List.drop_left _ _

theorem dictGet_mem {κ ν : Type} [DecidableEq κ] {d : List (κ × ν)} {k : κ} {v : ν}
    (h : dictGet d k = some v) : (k, v) ∈ d := by
  unfold dictGet at h
  cases hf : d.find? (fun p => decide (p.1 = k)) with
  | none => rw [hf] at h; cases h
  | some p =>
    rw [hf] at h
    have hp : p ∈ d := List.mem_of_find?_eq_some hf
    have hk : p.1 = k := by
      have := List.find?_some hf
      simpa using this
    have hv : p.2 = v := by
      simpa using h
    have : p = (k, v) := Prod.ext hk hv
    exact this ▸ hp

/-- C2: for a givens mapping containing the pair a to (symbolic) b,
with no replacement variable named like a, no external-input operator
consuming a, globally consistent expression keys, no pending gradients
and well-formed references, the compiled operator list is exactly the
external-input operators followed by the rewritten forward operators, no
operator in the compiled graph consumes the name of a, and every
defining operator of b is present in the external-input segment, which
precedes all rewritten forward operators. -/
theorem c2_givens_substitution (cfg : Config)
    (make : List OperatorDef → List String → List OperatorDef × List OperatorDef)
    (inputs outputs : List TensorRec) (gv : List (TensorRec × GivenVal))
    (a b : TensorRec) (s : WsState) (g : GraphDef) (s2 : WsState)
    (hok : function cfg make inputs outputs (some gv) none s = Except.ok (g, s2))
    (hpair : (a, GivenVal.tensor b) ∈ gv)
    (hnog : ∀ o ∈ outputs, o.grad_wrts = [])
    (hwf : ∀ o ∈ outputs, ∀ p ∈ o.expressions, p.2 < s.nextRef)
    (hwfg : ∀ pr ∈ gv, ∀ t, pr.2 = GivenVal.tensor t →
      ∀ q ∈ t.expressions, q.2 < s.nextRef)
    (hval : ∀ pr ∈ gv, ∀ t, pr.2 = GivenVal.tensor t → t.name ≠ a.name)
    (hext : ∀ pr ∈ gv, ∀ t, pr.2 = GivenVal.tensor t →
      ∀ q ∈ t.expressions, a.name ∉ (readOp s.heap q.2).input)
    (hcons : ∀ pr ∈ gv, ∀ pr2 ∈ gv, ∀ t t2, pr.2 = GivenVal.tensor t →
      pr2.2 = GivenVal.tensor t2 → ∀ q ∈ t.expressions, ∀ q2 ∈ t2.expressions,
      q.1 = q2.1 → q.2 = q2.2) :
    g.op = (extExprsOf gv).map (fun p => readOp s.heap p.2) ++
           (forwardOpsOf s.heap outputs).map (rewriteOp (ndOf gv))
    ∧ (∀ op ∈ g.op, a.name ∉ op.input)
    ∧ (∀ q ∈ b.expressions,
        readOp s.heap q.2 ∈ (extExprsOf gv).map (fun p => readOp s.heap p.2)) := by
  have hg : g = (compileGraph cfg make outputs (some gv) none s).1 :=
    congrArg Prod.fst (function_ok_inv hok)
  have hnoany : outputs.any (fun o => 0 < o.grad_wrts.length) = false := by
    rw [List.any_eq_false]
    intro o ho
    rw [hnog o ho]
    simp
  have hop : g.op = (extExprsOf gv).map (fun p => readOp s.heap p.2) ++
      (forwardOpsOf s.heap outputs).map (rewriteOp (ndOf gv)) := by
    rw [hg, compileGraph_op, hnoany]
    simp only [Bool.false_eq_true, if_false]
    rw [forwardStage_some_defs outputs gv (graphIdxStep s) hwf hwfg]
    simp only [graphIdxStep_heap]
  have hsub : ∀ i, (dictGet (ndOf gv) i).getD i ≠ a.name := by
    intro i
    cases hgi : dictGet (ndOf gv) i with
    | some v =>
      simp only [Option.getD_some]
      obtain ⟨pr, hpr, t, ht, hpe⟩ := mem_of_mem_ndOf (dictGet_mem hgi)
      have hv : v = t.name := congrArg Prod.snd hpe
      exact hv ▸ hval pr hpr t ht
    | none =>
      simp only [Option.getD_none]
      intro he
      rw [he] at hgi
      exact absurd (mem_dictKeys_ndOf hpair) ((dictGet_eq_none _ _).1 hgi)
  refine ⟨hop, ?_, ?_⟩
  · intro op hmem
    rw [hop] at hmem
    rcases List.mem_append.1 hmem with hmem | hmem
    · obtain ⟨p, hp, he⟩ := List.mem_map.1 hmem
      obtain ⟨pr, hpr, t, ht, hpe⟩ := mem_of_mem_extExprsOf hp
      exact he ▸ hext pr hpr t ht p hpe
    · obtain ⟨opd, hopd, he⟩ := List.mem_map.1 hmem
      rw [← he]
      show a.name ∉ (rewriteOp (ndOf gv) opd).input
      unfold rewriteOp
      rw [rewriteInputs_eq_map]
      intro hin
      obtain ⟨i, hi, hie⟩ := List.mem_map.1 hin
      exact hsub i hie
  · intro q hq
    refine List.mem_map_of_mem _ (mem_extExprsOf_of_pair hpair hq ?_)
    intro pr hpr t ht r hr hrk
    exact hcons pr hpr (a, GivenVal.tensor b) hpair t b ht rfl r hr q hq hrk

/-- Witness for C2: substituting x by b in the expression of y. -/
theorem c2_givens_substitution_witness :
    (compileGraph exCfg exMake [exY] (some [(exX, GivenVal.tensor exB)]) none exStB).1.op =
      (extExprsOf [(exX, GivenVal.tensor exB)]).map (fun p => readOp exStB.heap p.2) ++
      (forwardOpsOf exStB.heap [exY]).map (rewriteOp (ndOf [(exX, GivenVal.tensor exB)]))
    ∧ (∀ op ∈ (compileGraph exCfg exMake [exY]
        (some [(exX, GivenVal.tensor exB)]) none exStB).1.op, exX.name ∉ op.input)
    ∧ (∀ q ∈ exB.expressions, readOp exStB.heap q.2 ∈
        (extExprsOf [(exX, GivenVal.tensor exB)]).map (fun p => readOp exStB.heap p.2)) := by
  refine c2_givens_substitution exCfg exMake [] [exY] [(exX, GivenVal.tensor exB)] exX exB
    exStB _ _ rfl (by decide) (by decide) (by decide) ?_ ?_ ?_ ?_
  · intro pr hpr t ht q hq
    rw [List.mem_singleton] at hpr
    subst hpr
    have ht2 : GivenVal.tensor exB = GivenVal.tensor t := ht
    injection ht2 with h
    subst h
    revert q hq
    decide
  · intro pr hpr t ht
    rw [List.mem_singleton] at hpr
    subst hpr
    have ht2 : GivenVal.tensor exB = GivenVal.tensor t := ht
    injection ht2 with h
    subst h
    decide
  · intro pr hpr t ht q hq
    rw [List.mem_singleton] at hpr
    subst hpr
    have ht2 : GivenVal.tensor exB = GivenVal.tensor t := ht
    injection ht2 with h
    subst h
    revert q hq
    decide
  · intro pr hpr pr2 hpr2 t t2 ht ht2
    rw [List.mem_singleton] at hpr
    rw [List.mem_singleton] at hpr2
    subst hpr
    subst hpr2
    have he1 : GivenVal.tensor exB = GivenVal.tensor t := ht
    have he2 : GivenVal.tensor exB = GivenVal.tensor t2 := ht2
    injection he1 with h1
    injection he2 with h2
    subst h1
    subst h2
    decide

theorem GraphDef_Update_u_target (cfg : Config) (g : GraphDef) (u : Updater) (s : WsState) :
    (GraphDef_Update cfg g (some u) s).1.u_target = g.u_target ++
      (emitUpdateTargets u.type
        (dictSet u.extra_kwargs "domain" (ArgVal.str (g.name ++ "_")))
        u.tuples [] (feedHypers (g.name ++ "_") u.hyper_params s)).1 := by
  simp only [GraphDef_Update]
  split
  · split
    · rfl
    · rfl
  · rfl

theorem compileGraph_u_target (cfg : Config)
    (make : List OperatorDef → List String → List OperatorDef × List OperatorDef)
    (u : Updater) (s : WsState) :
    (compileGraph cfg make [] none (some u) s).1.u_target =
      (List.range u.tuples.length).map (fun i =>
        mkUpdateTarget u.type
          (dictSet u.extra_kwargs "domain"
            (ArgVal.str ("Graph_" ++ natStr s.current_graph_idx ++ "_")))
          ("Op_" ++ natStr (s.op_name_idx + i)) (u.tuples.getD i ([], []))) := by
  simp only [compileGraph]
  rw [if_neg (by decide)]
  rw [GraphDef_Update_u_target]
  simp only [GraphDef_Opt_u_target, GraphDef_Device_u_target, GraphDef_Opt_name,
    GraphDef_Device_name]
  rw [(emitUpdateTargets_spec _ _ _ _ _).1]
  rw [List.nil_append, List.nil_append]
  have hidx : (feedHypers ("Graph_" ++ natStr s.current_graph_idx ++ "_") u.hyper_params
      (forwardStage [] none (graphIdxStep s)).2).op_name_idx = s.op_name_idx := by
    rw [(feedHypers_state _ _ _).2.2.2.2.1]
    rw [(forwardStage_misc [] none (graphIdxStep s)).2.2, graphIdxStep_op_name_idx]
  rw [hidx]

/-- C3 as stated is false: with an instruction argument lr = 1 and a
shared extra argument lr = 2, the emitted update operator carries
lr = 2, so the shared/extra arguments, not the instruction-specific
ones, take precedence on key collision. -/
theorem c3_update_arg_precedence_counterexample :
    ((function exCfg exMake [] [] none (some exUpd) exSt).toOption.map
      (fun p => p.1.u_target.map UpdateTarget.arg)) =
      some [[("lr", ArgVal.int 2), ("domain", ArgVal.str "Graph_0_")]]
    ∧ dictGet [("lr", ArgVal.int 2), ("domain", ArgVal.str "Graph_0_")] "lr" ≠
        some (ArgVal.int 1) :=
  ⟨rfl, by decide⟩

/-- C3 (amended): with an updater and no outputs, compilation emits
exactly one update target per updater tuple, carrying the tensor group,
a freshly generated unique operator name, and the union of the tuple
arguments with the shared/extra arguments (the domain-extended extra
arguments taking precedence on key collision, as dict(arguments,
extra keyword overrides) does). -/
theorem c3_update_targets_amended (cfg : Config)
    (make : List OperatorDef → List String → List OperatorDef × List OperatorDef)
    (inputs : List TensorRec) (u : Updater) (s : WsState) (g : GraphDef) (s2 : WsState)
    (hok : function cfg make inputs [] none (some u) s = Except.ok (g, s2)) :
    g.u_target = (List.range u.tuples.length).map (fun i =>
      mkUpdateTarget u.type
        (dictSet u.extra_kwargs "domain"
          (ArgVal.str ("Graph_" ++ natStr s.current_graph_idx ++ "_")))
        ("Op_" ++ natStr (s.op_name_idx + i)) (u.tuples.getD i ([], [])))
    ∧ (g.u_target.map UpdateTarget.name).Nodup := by
  have hg : g = (compileGraph cfg make [] none (some u) s).1 :=
    congrArg Prod.fst (function_ok_inv hok)
  constructor
  · rw [hg]
    exact compileGraph_u_target cfg make u s
  · rw [hg, compileGraph_u_target, List.map_map]
    have hfn : (UpdateTarget.name ∘ fun i =>
        mkUpdateTarget u.type
          (dictSet u.extra_kwargs "domain"
            (ArgVal.str ("Graph_" ++ natStr s.current_graph_idx ++ "_")))
          ("Op_" ++ natStr (s.op_name_idx + i)) (u.tuples.getD i ([], []))) =
        fun i => "Op_" ++ natStr (s.op_name_idx + i) := funext fun i => rfl
    rw [hfn]
    refine List.Nodup.map ?_ (List.nodup_range _)
    intro i j hij
    have := append_natStr_inj "Op_" _ _ hij
    omega

/-- Witness for C3 (amended) at the concrete updater. -/
theorem c3_update_targets_amended_witness :
    (compileGraph exCfg exMake [] none (some exUpd) exSt).1.u_target =
      (List.range exUpd.tuples.length).map (fun i =>
        mkUpdateTarget exUpd.type
          (dictSet exUpd.extra_kwargs "domain"
            (ArgVal.str ("Graph_" ++ natStr exSt.current_graph_idx ++ "_")))
          ("Op_" ++ natStr (exSt.op_name_idx + i)) (exUpd.tuples.getD i ([], [])))
    ∧ ((compileGraph exCfg exMake [] none (some exUpd) exSt).1.u_target.map
        UpdateTarget.name).Nodup :=
  c3_update_targets_amended exCfg exMake [] exUpd exSt _ _ rfl

/-- C4 fails on the code (code bug): for a raw-array givens replacement
the source calls ws.FeedTensor(new_tensor, GetTensorName()) with the
array in the name position and the generated name in the value position
(the same file calls FeedTensor(name, value) at the hyper-parameter
feed), and it records no entry in the substitution dict, so the forward
operator still consumes the name of the original variable x. -/
theorem c4_array_given_feed_swapped_and_unsubstituted :
    ((function exCfg exMake [] [exY] (some [(exX, GivenVal.array [5])]) none exSt).toOption.map
      (fun p => (p.2.feeds, p.1.op.map OperatorDef.input))) =
      some ([(PyObj.arr [5], PyObj.str "Tensor_0")], [[], ["x"]]) := rfl

/-- A givens source variable whose name does not occur among the forward
operator inputs, used to exhibit the pass-through of unmapped names. -/
def exW : TensorRec :=
  { name := "w", expressions := [], extra_targets := [], grad_wrts := [] }

/-- C5 as stated is false: with the substitution map containing only
w to b, the forward operator input x is absent from the map, yet
compilation succeeds (no unknown-substitution failure is raised) and the
name x passes through unchanged. -/
theorem c5_unknown_name_passthrough_counterexample :
    (function exCfg exMake [] [exY] (some [(exW, GivenVal.tensor exB)]) none exStB).isOk = true
    ∧ ((function exCfg exMake [] [exY]
        (some [(exW, GivenVal.tensor exB)]) none exStB).toOption.map
        (fun p => p.1.op.map OperatorDef.input)) = some [[], [], ["x"]] :=
  ⟨rfl, rfl⟩

/-- C5 (amended): an input name absent from the substitution map is
passed through unchanged; the lookup is guarded by a membership test, so
the rewrite is total and no failure is ever raised for absent names. -/
theorem c5_unknown_name_passthrough_amended (nd : List (String × String))
    (op : OperatorDef) (h : ∀ i ∈ op.input, dictGet nd i = none) :
    rewriteOp nd op = op := by
  unfold rewriteOp
  rw [rewriteInputs_eq_map]
  have hmap : op.input.map (fun i => (dictGet nd i).getD i) = op.input := by
    have hc : ∀ i ∈ op.input, (dictGet nd i).getD i = id i := by
      intro i hi
      rw [h i hi]
      rfl
    rw [List.map_congr_left hc, List.map_id]
  rw [hmap]

/-- The operator used by the C5 amended witness. -/
def exOpZ : OperatorDef := { type := "T", input := ["z"], output := [], arg := [] }

/-- Witness for C5 (amended) at a concrete operator and map. -/
theorem c5_unknown_name_passthrough_amended_witness :
    (∀ i ∈ exOpZ.input, dictGet [("a", "b")] i = none) ∧
    rewriteOp [("a", "b")] exOpZ = exOpZ :=
  ⟨by decide, c5_unknown_name_passthrough_amended [("a", "b")] exOpZ (by decide)⟩

/-- Witness for C6: a gradient-free compilation with no phase override
gets the TEST phase argument. -/
theorem c6_phase_decision_witness :
    (compileGraph exCfg exMake [exY] none none exSt).1.arg =
      [("phase", ArgVal.str (phaseOf exCfg [exY]))]
    ∧ phaseOf exCfg [exY] = "TEST" :=
  ⟨(c6_phase_decision exCfg exMake [] [exY] none none exSt _ _ rfl (by decide)).1,
   (c6_phase_decision exCfg exMake [] [exY] none none exSt _ _ rfl (by decide)).2.2.1
     rfl (by decide)⟩
